import Mathlib

/-!
Verification development for the Relay layout-inference pass
(`layout_infer.cc`, class `LayoutInferencer`).

The C++ analysis is shallowly embedded: expression nodes become an inductive
type carrying an explicit node identity (a `Nat`), mirroring the C++ map keyed
by object identity; the mutable inferencer state (`layout_map_`,
`layout_timestamp_`, `modified_`, `timestamp_`) becomes an explicit record
threaded through the visitor; `LOG(FATAL)` becomes `Except.error`; the
externally registered per-operator inference rules (`FInferLayout` looked up
by operator identity) become a pure lookup table from operator id to a pure
rule function, and the `LayoutReporter` scratch object becomes the rule's
returned list of `(node id, RelayLayout)` proposals (the engine only ever
reads `reporter->results`, so this is information-preserving).
-/

namespace LayoutInfer

/-- `Layout`: opaque symbolic axis-ordering tag (`tvm::Layout`), with the
distinguished `Layout::Undef()` value modelled as `undef`. The engine compares
layouts only by equality. -/
inductive Layout where
  | undef : Layout
  | tag : String → Layout
deriving DecidableEq, Repr

/-- `RelayLayout`: tagged union over `TensorLayoutNode` (one layout for a
single-tensor node) and `TupleLayoutNode` (an ordered field list for a
tuple-valued node). `RelayLayout::Equals` is structural equality. -/
inductive RelayLayout where
  | tensor : Layout → RelayLayout
  | tuple : List Layout → RelayLayout
deriving DecidableEq, Repr

/-- Static checked type of a node, as much of it as the engine inspects:
`expr->checked_type()->is_type<TupleTypeNode>()` and, in the tuple case,
`type_as<TupleTypeNode>()->fields.size()`. So a type is either a single
tensor type or a tuple type with a field count. -/
inductive RelayType where
  | tensorTy : RelayType
  | tupleTy : Nat → RelayType
deriving DecidableEq, Repr

/-- Relay expression nodes, one constructor per node kind dispatched by
`ExprFunctor`. Every node carries its identity (`nid`, standing for the C++
object pointer used as map key) and its checked type. Only `Call` and
`Function` have sub-expressions the visitor ever reaches; the unsupported
kinds abort before touching any payload, so their payloads are elided. -/
inductive Expr where
  | var (nid : Nat) (ty : RelayType)
  | globalVar (nid : Nat) (ty : RelayType)
  | constant (nid : Nat) (ty : RelayType)
  | tupleE (nid : Nat) (ty : RelayType)
  | tupleGetItem (nid : Nat) (ty : RelayType)
  | opE (nid : Nat) (ty : RelayType)
  | letE (nid : Nat) (ty : RelayType)
  | ifE (nid : Nat) (ty : RelayType)
  | call (nid : Nat) (ty : RelayType) (opId : Nat) (args : List Expr)
  | function (nid : Nat) (ty : RelayType) (body : Expr)
  | matchE (nid : Nat) (ty : RelayType)
  | refCreate (nid : Nat) (ty : RelayType)
  | refRead (nid : Nat) (ty : RelayType)
  | refWrite (nid : Nat) (ty : RelayType)
  | constructorE (nid : Nat) (ty : RelayType)

/-- Node identity (the C++ object reference used as the key of
`layout_map_` and `layout_timestamp_`). -/
def Expr.nid : Expr → Nat
  | .var i _ => i
  | .globalVar i _ => i
  | .constant i _ => i
  | .tupleE i _ => i
  | .tupleGetItem i _ => i
  | .opE i _ => i
  | .letE i _ => i
  | .ifE i _ => i
  | .call i _ _ _ => i
  | .function i _ _ => i
  | .matchE i _ => i
  | .refCreate i _ => i
  | .refRead i _ => i
  | .refWrite i _ => i
  | .constructorE i _ => i

/-- The node's `checked_type()`. -/
def Expr.nty : Expr → RelayType
  | .var _ t => t
  | .globalVar _ t => t
  | .constant _ t => t
  | .tupleE _ t => t
  | .tupleGetItem _ t => t
  | .opE _ t => t
  | .letE _ t => t
  | .ifE _ t => t
  | .call _ t _ _ => t
  | .function _ t _ => t
  | .matchE _ t => t
  | .refCreate _ t => t
  | .refRead _ t => t
  | .refWrite _ t => t
  | .constructorE _ t => t

/-- Association-list lookup, modelling `Map::find` / `Map::count` keyed on
node identity. -/
def alFind {α : Type} : List (Nat × α) → Nat → Option α
  | [], _ => none
  | (k0, v0) :: rest, k => if k0 = k then some v0 else alFind rest k

/-- Association-list update, modelling `Map::Set`: overwrite the existing
binding in place, or append a fresh one. -/
def alSet {α : Type} : List (Nat × α) → Nat → α → List (Nat × α)
  | [], k, v => [(k, v)]
  | (k0, v0) :: rest, k, v =>
      if k0 = k then (k, v) :: rest else (k0, v0) :: alSet rest k v

/-- `layout_timestamp_[expr]`: `std::unordered_map::operator[]`
default-constructs `0` for an absent key, so a lookup reads as
"stored value, defaulting to 0". -/
def tsGet (m : List (Nat × Nat)) (k : Nat) : Nat :=
  (alFind m k).getD 0

/-- The mutable state of one `LayoutInferencer`:
`layout_map_`, `layout_timestamp_`, `modified_`, `timestamp_`. -/
structure State where
  layout_map : List (Nat × RelayLayout)
  layout_timestamp : List (Nat × Nat)
  modified : Bool
  timestamp : Nat
deriving DecidableEq, Repr

/-- State of a freshly constructed inferencer: an empty or caller-supplied
pre-seeded `layout_map_`, empty timestamp map, `modified_ = false`,
`timestamp_ = 0` (the values the default constructor establishes). -/
def initState (seed : List (Nat × RelayLayout)) : State :=
  { layout_map := seed, layout_timestamp := [], modified := false, timestamp := 0 }

/-- An `FInferLayout` inference rule, as the engine invokes it:
`finfer_layout[op](layouts, types, call->args.size(), call->attrs, reporter)`.
The rule is an external pure function of the bound nodes, the current layouts
vector, the types vector and the true-argument count (the attribute payload is
opaque to the engine and omitted). Returning `none` models the rule returning
`false` (declining); returning `some props` models returning `true` with the
reporter populated with the `(node, RelayLayout)` pairs `props`. -/
def InferRule : Type :=
  List Nat → List RelayLayout → List RelayType → Nat →
    Option (List (Nat × RelayLayout))

/-- The operator-attribute registry `Op::GetAttr<FInferLayout>("FInferLayout")`:
a read-only partial map from operator identity to its rule. -/
def Rules : Type := Nat → Option InferRule

/-- The default `RelayLayout` built inside `GetCachedLayout`:
`num_outputs = checked_type is TupleType ? fields.size() : 1`; a node with
`num_outputs == 1` gets `TensorLayoutNode::make(default_layout)` (note: this
includes a 1-field tuple type), otherwise
`TupleLayoutNode::make(Array<Layout>(num_outputs, default_layout))`. -/
def defaultLayoutFor (ty : RelayType) (d : Layout) : RelayLayout :=
  let num_outputs : Nat := match ty with
    | .tupleTy n => n
    | .tensorTy => 1
  if num_outputs = 1 then RelayLayout.tensor d
  else RelayLayout.tuple (List.replicate num_outputs d)

/-- `LayoutInferencer::GetCachedLayout`: return the cached layout if the node
is present in `layout_map_`; otherwise build the all-default layout shaped by
the node's checked type, set `modified_ = true`, insert it, and return it. -/
def GetCachedLayout (s : State) (e : Expr) (d : Layout) : RelayLayout × State :=
  match alFind s.layout_map e.nid with
  | some l => (l, s)
  | none =>
      let olayout := defaultLayoutFor e.nty d
      (olayout,
        { s with modified := true, layout_map := alSet s.layout_map e.nid olayout })

/-- `LayoutInferencer::UpdateLayoutCache(expr, layout)`: if the node is absent
or its stored value is not `Equals` to the proposal, store the proposal and
set `modified_`. No other validation is performed. -/
def UpdateLayoutCache (s : State) (k : Nat) (l : RelayLayout) : State :=
  match alFind s.layout_map k with
  | none => { s with layout_map := alSet s.layout_map k l, modified := true }
  | some old =>
      if old = l then s
      else { s with layout_map := alSet s.layout_map k l, modified := true }

/-- `LayoutInferencer::UpdateLayoutCache(reporter)`: merge every
`(node, layout)` pair of `reporter->results` in order. -/
def UpdateLayoutCacheAll (s : State) (props : List (Nat × RelayLayout)) : State :=
  props.foldl (fun acc p => UpdateLayoutCache acc p.1 p.2) s

mutual

/-- The visitor dispatch `ExprFunctor::VisitExpr` over the `VisitExpr_`
overloads of `LayoutInferencer`. Unsupported node kinds `LOG(FATAL)` with the
node-kind name; `Var` returns `GetCachedLayout`; `Function` delegates to its
body; `Call` runs the inference protocol (argument layouts via the memoized
`GetLayout`, own layout via `GetCachedLayout`, optional rule invocation and
merge, timestamp stamp, and a final `GetCachedLayout` as the return value). -/
def VisitExpr (g : Rules) (s : State) : Expr → Except String (RelayLayout × State)
  | .var i ty => .ok (GetCachedLayout s (.var i ty) Layout.undef)
  | .globalVar _ _ => .error "GlobalVarNode"
  | .constant _ _ => .error "ConstantNode"
  | .tupleE _ _ => .error "TupleNode"
  | .tupleGetItem _ _ => .error "TupleGetItemNode"
  | .opE _ _ => .error "OpNode"
  | .letE _ _ => .error "LetNode"
  | .ifE _ _ => .error "IfNode"
  | .call i ty opId args =>
      match VisitArgs g s args with
      | .error e => .error e
      | .ok (argLayouts, s1) =>
          let node := Expr.call i ty opId args
          let (clayout, s2) := GetCachedLayout s1 node Layout.undef
          let layouts := argLayouts ++ [clayout]
          let types := args.map Expr.nty ++ [ty]
          let nodes := args.map Expr.nid ++ [i]
          let s3 := match g opId with
            | some rule =>
                match rule nodes layouts types args.length with
                | some props => UpdateLayoutCacheAll s2 props
                | none => s2
            | none => s2
          let s4 := { s3 with
            layout_timestamp := alSet s3.layout_timestamp i s3.timestamp }
          .ok (GetCachedLayout s4 node Layout.undef)
  | .function _ _ body => VisitExpr g s body
  | .matchE _ _ => .error "MatchNode"
  | .refCreate _ _ => .error "RefCreateNode"
  | .refRead _ _ => .error "RefReadNode"
  | .refWrite _ _ => .error "RefWriteNode"
  | .constructorE _ _ => .error "ConstructorNode"

/-- The argument loop of `VisitExpr_(const CallNode*)`: each argument's layout
is obtained through `GetLayout` and collected in order, threading the state.
The body of `GetLayout` is inlined here (see `GetLayout` below and the lemma
`VisitArgs_cons`) so the recursion is structural. -/
def VisitArgs (g : Rules) (s : State) : List Expr → Except String (List RelayLayout × State)
  | [] => .ok ([], s)
  | a :: rest =>
      let step : Except String (RelayLayout × State) :=
        match alFind s.layout_map a.nid with
        | some l =>
            if tsGet s.layout_timestamp a.nid < s.timestamp then
              match VisitExpr g s a with
              | .error err => .error err
              | .ok (l2, s1) =>
                  .ok (l2, { s1 with layout_map := alSet s1.layout_map a.nid l2 })
            else .ok (l, s)
        | none =>
            match VisitExpr g s a with
            | .error err => .error err
            | .ok (l2, s1) =>
                .ok (l2, { s1 with layout_map := alSet s1.layout_map a.nid l2 })
      match step with
      | .error e => .error e
      | .ok (l, s1) =>
          match VisitArgs g s1 rest with
          | .error e => .error e
          | .ok (ls, s2) => .ok (l :: ls, s2)

end

/-- `LayoutInferencer::GetLayout`: if the node is absent from `layout_map_` or
its timestamp is older than the current round (`layout_timestamp_[expr] <
timestamp_`), recompute via `VisitExpr` and `Set` the result; finally return
`layout_map_[expr]`, which after the `Set` is exactly the recomputed value. -/
def GetLayout (g : Rules) (s : State) (e : Expr) : Except String (RelayLayout × State) :=
  match alFind s.layout_map e.nid with
  | some l =>
      if tsGet s.layout_timestamp e.nid < s.timestamp then
        match VisitExpr g s e with
        | .error err => .error err
        | .ok (l2, s1) =>
            .ok (l2, { s1 with layout_map := alSet s1.layout_map e.nid l2 })
      else .ok (l, s)
  | none =>
      match VisitExpr g s e with
      | .error err => .error err
      | .ok (l2, s1) =>
          .ok (l2, { s1 with layout_map := alSet s1.layout_map e.nid l2 })

/-- The args loop steps exactly through `GetLayout` on each argument. -/
theorem VisitArgs_cons (g : Rules) (s : State) (a : Expr) (rest : List Expr) :
    VisitArgs g s (a :: rest) =
      match GetLayout g s a with
      | .error e => .error e
      | .ok (l, s1) =>
          match VisitArgs g s1 rest with
          | .error e => .error e
          | .ok (ls, s2) => .ok (l :: ls, s2) := rfl

/-- The state reset performed at the top of each fixed-point round inside
`Infer`'s loop: `modified_ = false; timestamp_++`. -/
def roundStart (s : State) : State :=
  { s with modified := false, timestamp := s.timestamp + 1 }

/-- One full fixed-point round as executed by `Infer`'s loop body: reset the
modified flag, bump the generation, re-visit the root, keep the state. -/
def runRound (g : Rules) (root : Expr) (s : State) : Except String State :=
  match VisitExpr g (roundStart s) root with
  | .error e => .error e
  | .ok (_, s') => .ok s'

/-- `n`-fold iteration of `runRound` (unconditional), used to phrase
"the rule set eventually stabilizes" for the termination claims. -/
def roundIter (g : Rules) (root : Expr) : Nat → State → Except String State
  | 0, s => .ok s
  | n + 1, s =>
      match runRound g root s with
      | .error e => .error e
      | .ok s' => roundIter g root n s'

/-- The `while (modified_)` loop of `LayoutInferencer::Infer` (the recursive
`this->Infer(expr)` call inside the loop body behaves exactly as one more
loop iteration, since the inner call returns only once `modified_` is false).
The C++ loop is unbounded, so it is given explicit fuel; `ok none` means the
fuel ran out with the flag still set (the C++ would still be looping). -/
def InferRounds (g : Rules) (root : Expr) : Nat → State → Except String (Option State)
  | fuel, s =>
    if s.modified then
      match fuel with
      | 0 => .ok none
      | fuel' + 1 =>
          match runRound g root s with
          | .error e => .error e
          | .ok s' => InferRounds g root fuel' s'
    else .ok (some s)

/-- `LayoutInferencer::Infer`: one initial `VisitExpr(expr)`, then the
fixed-point loop. Returns the final state (the C++ returns `expr` and keeps
the state in the object; the state is what the claims are about). -/
def Infer (g : Rules) (root : Expr) (fuel : Nat) (s : State) : Except String (Option State) :=
  match VisitExpr g s root with
  | .error e => .error e
  | .ok (_, s1) => InferRounds g root fuel s1

/-- The per-entry unwrapping done by `CollectLayoutInfo`: a `TensorLayout`
entry yields the one-element array of its layout, a `TupleLayout` entry
yields its stored `fields` array. -/
def relayLayoutFields : RelayLayout → List Layout
  | .tensor l => [l]
  | .tuple fs => fs

/-- `LayoutInferencer::CollectLayoutInfo`: walk every entry of `layout_map_`
and produce the public node-to-layout-sequence mapping. A pure read of the
map; the state is not modified. -/
def CollectLayoutInfo (s : State) : List (Nat × List Layout) :=
  s.layout_map.map (fun p => (p.1, relayLayoutFields p.2))

/-- The arity of a `RelayLayout` value: 1 for a `TensorLayout`, the field
count for a `TupleLayout`. -/
def relayLayoutArity : RelayLayout → Nat
  | .tensor _ => 1
  | .tuple fs => fs.length

/-- The arity implied by a node's static type: 1 for a tensor type, the field
count for a tuple type. -/
def typeArity : RelayType → Nat
  | .tensorTy => 1
  | .tupleTy n => n

/-! ## A structural induction principle for expressions
(nested through argument lists) -/

def exprInd (P : Expr → Prop)
    (hvar : ∀ i ty, P (.var i ty))
    (hglobalVar : ∀ i ty, P (.globalVar i ty))
    (hconstant : ∀ i ty, P (.constant i ty))
    (htupleE : ∀ i ty, P (.tupleE i ty))
    (htupleGetItem : ∀ i ty, P (.tupleGetItem i ty))
    (hopE : ∀ i ty, P (.opE i ty))
    (hletE : ∀ i ty, P (.letE i ty))
    (hifE : ∀ i ty, P (.ifE i ty))
    (hcall : ∀ i ty opId args, (∀ a ∈ args, P a) → P (.call i ty opId args))
    (hfunction : ∀ i ty body, P body → P (.function i ty body))
    (hmatchE : ∀ i ty, P (.matchE i ty))
    (hrefCreate : ∀ i ty, P (.refCreate i ty))
    (hrefRead : ∀ i ty, P (.refRead i ty))
    (hrefWrite : ∀ i ty, P (.refWrite i ty))
    (hconstructorE : ∀ i ty, P (.constructorE i ty)) : ∀ e, P e
  | .var i ty => hvar i ty
  | .globalVar i ty => hglobalVar i ty
  | .constant i ty => hconstant i ty
  | .tupleE i ty => htupleE i ty
  | .tupleGetItem i ty => htupleGetItem i ty
  | .opE i ty => hopE i ty
  | .letE i ty => hletE i ty
  | .ifE i ty => hifE i ty
  | .call i ty opId args =>
      hcall i ty opId args (fun a _ =>
        exprInd P hvar hglobalVar hconstant htupleE htupleGetItem hopE hletE hifE
          hcall hfunction hmatchE hrefCreate hrefRead hrefWrite hconstructorE a)
  | .function i ty body =>
      hfunction i ty body
        (exprInd P hvar hglobalVar hconstant htupleE htupleGetItem hopE hletE hifE
          hcall hfunction hmatchE hrefCreate hrefRead hrefWrite hconstructorE body)
  | .matchE i ty => hmatchE i ty
  | .refCreate i ty => hrefCreate i ty
  | .refRead i ty => hrefRead i ty
  | .refWrite i ty => hrefWrite i ty
  | .constructorE i ty => hconstructorE i ty
termination_by e => sizeOf e
decreasing_by
  · rename_i ha
    have := List.sizeOf_lt_of_mem ha
    simp only [Expr.call.sizeOf_spec]
    omega
  · simp only [Expr.function.sizeOf_spec]
    omega

/-! ## Decidable equality of engine results, for concrete evaluations -/

instance {ε α : Type} [DecidableEq ε] [DecidableEq α] : DecidableEq (Except ε α) := fun a b =>
  match a, b with
  | .error x, .error y => decidable_of_iff (x = y) (by simp)
  | .ok x, .ok y => decidable_of_iff (x = y) (by simp)
  | .error _, .ok _ => isFalse (by simp)
  | .ok _, .error _ => isFalse (by simp)

/-- Concrete layout tag used in the specification's scenarios. -/
def NCHW : Layout := Layout.tag "NCHW"

/-- Concrete layout tag used in the specification's scenarios. -/
def NHWC : Layout := Layout.tag "NHWC"

/-- Concrete layout tag used in the specification's scenarios. -/
def OIHW : Layout := Layout.tag "OIHW"

/-- The registry with no rules registered at all. -/
def noRules : Rules := fun _ => none

/-- A rule that always declines (`FInferLayout` returning `false`). -/
def declineRule : InferRule := fun _ _ _ _ => none

/-- A registry whose operator 0 always declines. -/
def declineRules : Rules := fun o => if o = 0 then some declineRule else none

/-- The spec's Scenario B rule for `conv2d`: on first invocation (all current
layouts still `Undef`) propose `x -> NCHW`, `w -> OIHW`, `result -> NCHW`;
decline thereafter. -/
def convRule : InferRule := fun nodes layouts _ _ =>
  match nodes, layouts with
  | [x, w, c], [lx, lw, lc] =>
      if lx = RelayLayout.tensor Layout.undef ∧ lw = RelayLayout.tensor Layout.undef ∧
          lc = RelayLayout.tensor Layout.undef
      then some [(x, RelayLayout.tensor NCHW), (w, RelayLayout.tensor OIHW),
                 (c, RelayLayout.tensor NCHW)]
      else none
  | _, _ => none

/-- Registry with `convRule` registered for operator 1 only. -/
def convRules : Rules := fun o => if o = 1 then some convRule else none

/-- Scenario B call: `conv2d(x, w)` with node ids `x = 0`, `w = 1`,
call = 2, operator id 1. -/
def convCall : Expr := .call 2 .tensorTy 1 [.var 0 .tensorTy, .var 1 .tensorTy]

/-- For the C5 counterexample: an inner call (node 1, operator 1, i.e. with a
registered rule) whose argument is the variable `x` (node 0). -/
def innerCall : Expr := .call 1 .tensorTy 1 [.var 0 .tensorTy]

/-- For the C5 counterexample: an outer call (node 2, operator 0 — an
operator with NO registered rule in `convRules`) whose argument is
`innerCall`. -/
def outerCall : Expr := .call 2 .tensorTy 0 [innerCall]

/-- For the C5 counterexample: the rule proposing a layout change for the
already-cached variable node 0: inputs are the inner call's nodes
`[x = 0, call = 1]`; it proposes `x -> NCHW` and `call -> NCHW` whenever
`x`'s current layout is still `Undef`. -/
def xChangingRule : InferRule := fun nodes layouts _ _ =>
  match nodes, layouts with
  | [x, c], [lx, _] =>
      if lx = RelayLayout.tensor Layout.undef
      then some [(x, RelayLayout.tensor NCHW), (c, RelayLayout.tensor NCHW)]
      else none
  | _, _ => none

/-- For the C5 counterexample: operator 1 carries `xChangingRule`; operator 0
(the outer call's operator) has no rule. -/
def c5Rules : Rules := fun o => if o = 1 then some xChangingRule else none

mutual

/-- An expression is "rule-free" under a registry when it is built only of
variables and of calls whose operators have no registered rule. Visiting such
an expression can trigger no rule and hence no merge. -/
def ruleFree (g : Rules) : Expr → Bool
  | .var _ _ => true
  | .call _ _ opId args => (g opId).isNone && ruleFreeList g args
  | _ => false

/-- All expressions of a list are rule-free. -/
def ruleFreeList (g : Rules) : List Expr → Bool
  | [] => true
  | a :: rest => ruleFree g a && ruleFreeList g rest

end

/-! ### Material for the idempotence claim: resolved (converged) states -/

/-- The layout an argument-position lookup yields once the node is cached:
the node's current layout-map entry (the `getD` default is never reached
where this is used). -/
def argVal (s : State) (a : Expr) : RelayLayout :=
  (alFind s.layout_map a.nid).getD (RelayLayout.tensor Layout.undef)

/-- The layout a direct visit of an already-resolved expression returns: a
function delegates to its body, every other node reads its map entry. -/
def readVal (s : State) : Expr → RelayLayout
  | .function _ _ b => readVal s b
  | e => (alFind s.layout_map e.nid).getD (RelayLayout.tensor Layout.undef)

mutual

/-- Node-identity classification — the faithfulness assumption the C++
object model provides (each map key is one object): `F` holds of identities
of function nodes, `C` of identities of call nodes, and `B k b` records that
the function node with identity `k` has body `b`. `Cls` states that the
expression's nodes are consistently classified. -/
def Cls (F C : Nat → Prop) (B : Nat → Expr → Prop) : Expr → Prop
  | .var j _ => ¬ F j ∧ ¬ C j
  | .call j _ _ args => ¬ F j ∧ C j ∧ ClsList F C B args
  | .function j _ b => F j ∧ ¬ C j ∧ B j b ∧ Cls F C B b
  | e => ¬ F e.nid ∧ ¬ C e.nid

/-- Every expression of the list is consistently classified. -/
def ClsList (F C : Nat → Prop) (B : Nat → Expr → Prop) : List Expr → Prop
  | [] => True
  | a :: rest => Cls F C B a ∧ ClsList F C B rest

end

/-- The merge step of a call's visit changes nothing in state `s`: either the
operator has no rule, or the rule — invoked on the call's cached inputs —
declines, or every proposal equals the corresponding current map entry. -/
def MergeNoop (g : Rules) (s : State) (i : Nat) (ty : RelayType) (opId : Nat)
    (args : List Expr) : Prop :=
  match g opId with
  | none => True
  | some r =>
      match r (args.map Expr.nid ++ [i])
          (args.map (argVal s) ++
            [(alFind s.layout_map i).getD (RelayLayout.tensor Layout.undef)])
          (args.map Expr.nty ++ [ty]) args.length with
      | none => True
      | some props => ∀ p ∈ props, alFind s.layout_map p.1 = some p.2

mutual

/-- Visiting this expression directly from state `s` succeeds, returns
`readVal s`, and leaves `s` exactly unchanged (the per-node converged
condition). -/
def FreshDirect (g : Rules) (s : State) : Expr → Prop
  | .var j _ => ∃ v, alFind s.layout_map j = some v
  | .function _ _ b => FreshDirect g s b
  | .call i ty opId args =>
      ArgsFresh g s args ∧
      (∃ cl, alFind s.layout_map i = some cl) ∧
      alFind s.layout_timestamp i = some s.timestamp ∧
      MergeNoop g s i ty opId args
  | _ => False

/-- Every argument of the list is fresh for `s`. -/
def ArgsFresh (g : Rules) (s : State) : List Expr → Prop
  | [] => True
  | a :: rest => ArgFresh g s a ∧ ArgsFresh g s rest

/-- Looking this argument up through `GetLayout` in state `s` succeeds,
returns its cached `argVal`, and leaves `s` exactly unchanged. -/
def ArgFresh (g : Rules) (s : State) : Expr → Prop
  | .var j _ => ∃ v, alFind s.layout_map j = some v
  | .call j _ _ _ =>
      (¬ tsGet s.layout_timestamp j < s.timestamp) ∧
      ∃ v, alFind s.layout_map j = some v
  | .function j _ b =>
      if tsGet s.layout_timestamp j < s.timestamp
      then FreshDirect g s b ∧ alFind s.layout_map j = some (readVal s b)
      else ∃ v, alFind s.layout_map j = some v
  | e =>
      (¬ tsGet s.layout_timestamp e.nid < s.timestamp) ∧
      ∃ v, alFind s.layout_map e.nid = some v

end

/-- `v` lies later than `u` within one modification-free stretch of a round:
the generation is unchanged; entries of non-function identities are
untouched; a function identity's entry is untouched or — when recomputation
is possible, i.e. the generation is positive or the entry was absent —
synced to its body's resolved value; and the timestamp map changes only by
stamping call identities with the current generation. -/
structure Later (F C : Nat → Prop) (B : Nat → Expr → Prop) (u v : State) : Prop where
  ts_eq : v.timestamp = u.timestamp
  map_nonfn : ∀ k, ¬ F k → alFind v.layout_map k = alFind u.layout_map k
  map_fn : ∀ k, F k → alFind v.layout_map k = alFind u.layout_map k ∨
      ((0 < u.timestamp ∨ alFind u.layout_map k = none) ∧
        ∃ b, B k b ∧ alFind v.layout_map k = some (readVal u b))
  lts : ∀ k, alFind v.layout_timestamp k = alFind u.layout_timestamp k ∨
      (C k ∧ alFind v.layout_timestamp k = some u.timestamp)

/-- The timestamp map only ever holds call identities, stamped with past or
current generations. True of a freshly constructed inferencer (empty
timestamp map) and preserved by the engine. -/
def LtsOK (C : Nat → Prop) (s : State) : Prop :=
  ∀ k x, alFind s.layout_timestamp k = some x → x ≤ s.timestamp ∧ C k

/-- The reporter contract of the call protocol: a rule's proposals cover
only the nodes bound to the reporter — the call's arguments and the call
itself. -/
def RulesScoped (g : Rules) : Prop :=
  ∀ opId r nodes layouts types n props, g opId = some r →
    r nodes layouts types n = some props → ∀ p ∈ props, p.1 ∈ nodes

/-! ## Basic lemmas about the association-list operations -/

theorem alFind_alSet_self {α : Type} (m : List (Nat × α)) (k : Nat) (v : α) :
    alFind (alSet m k v) k = some v := by
  induction m with
  | nil => simp [alSet, alFind]
  | cons p rest ih =>
      obtain ⟨k0, v0⟩ := p
      by_cases h : k0 = k
      · simp [alSet, alFind, h]
      · simp [alSet, alFind, h, ih]

theorem alFind_alSet_ne {α : Type} (m : List (Nat × α)) (k k' : Nat) (v : α)
    (h : k' ≠ k) : alFind (alSet m k v) k' = alFind m k' := by
  have hkk' : ¬ (k = k') := fun hc => h hc.symm
  induction m with
  | nil => simp [alSet, alFind, hkk']
  | cons p rest ih =>
      obtain ⟨k0, v0⟩ := p
      by_cases h0 : k0 = k
      · have hk0 : ¬ (k0 = k') := by rw [h0]; exact hkk'
        simp [alSet, alFind, h0, hk0, hkk']
      · by_cases h1 : k0 = k'
        · simp [alSet, alFind, h0, h1, h]
        · simp [alSet, alFind, h0, h1, ih]

theorem alSet_eq_self {α : Type} (m : List (Nat × α)) (k : Nat) (v : α)
    (h : alFind m k = some v) : alSet m k v = m := by
  induction m with
  | nil => simp [alFind] at h
  | cons p rest ih =>
      obtain ⟨k0, v0⟩ := p
      by_cases h0 : k0 = k
      · subst h0
        simp [alFind] at h
        simp [alSet, h]
      · simp [alFind, h0] at h
        simp [alSet, h0, ih h]

theorem tsGet_alSet_self (m : List (Nat × Nat)) (k : Nat) (v : Nat) :
    tsGet (alSet m k v) k = v := by
  simp [tsGet, alFind_alSet_self]

/-- Values already present survive an `alSet` (possibly overwritten with the
same value when the keys match and the values coincide). -/
theorem alFind_preserve_of_set {α : Type} (m : List (Nat × α)) (k k' : Nat) (v v' : α)
    (hk : alFind m k = none) (h : alFind m k' = some v') :
    alFind (alSet m k v) k' = some v' := by
  have hne : k' ≠ k := by
    intro he
    rw [he] at h
    rw [h] at hk
    exact Option.noConfusion hk
  rw [alFind_alSet_ne m k k' v hne, h]

/-! ## Lemmas about the primitive state operations -/

theorem GetCachedLayout_present (s : State) (e : Expr) (d : Layout) (l : RelayLayout)
    (h : alFind s.layout_map e.nid = some l) :
    GetCachedLayout s e d = (l, s) := by
  simp [GetCachedLayout, h]

/-- After `GetCachedLayout`, the node is cached with exactly the returned
layout. -/
theorem GetCachedLayout_find (s : State) (e : Expr) (d : Layout) :
    alFind (GetCachedLayout s e d).2.layout_map e.nid = some (GetCachedLayout s e d).1 := by
  unfold GetCachedLayout
  cases h : alFind s.layout_map e.nid with
  | some l => simp [h]
  | none => simp [h, alFind_alSet_self]

theorem GetCachedLayout_timestamp (s : State) (e : Expr) (d : Layout) :
    (GetCachedLayout s e d).2.timestamp = s.timestamp := by
  unfold GetCachedLayout
  cases h : alFind s.layout_map e.nid <;> simp [h]

theorem GetCachedLayout_layout_timestamp (s : State) (e : Expr) (d : Layout) :
    (GetCachedLayout s e d).2.layout_timestamp = s.layout_timestamp := by
  unfold GetCachedLayout
  cases h : alFind s.layout_map e.nid <;> simp [h]

/-- `GetCachedLayout` never changes the value of an existing entry. -/
theorem GetCachedLayout_preserve (s : State) (e : Expr) (d : Layout) (k : Nat)
    (v : RelayLayout) (h : alFind s.layout_map k = some v) :
    alFind (GetCachedLayout s e d).2.layout_map k = some v := by
  unfold GetCachedLayout
  cases h0 : alFind s.layout_map e.nid with
  | some l => simpa [h0] using h
  | none => simp [h0, alFind_preserve_of_set _ _ _ _ _ h0 h]

theorem UpdateLayoutCache_timestamp (s : State) (k : Nat) (l : RelayLayout) :
    (UpdateLayoutCache s k l).timestamp = s.timestamp := by
  unfold UpdateLayoutCache
  cases h : alFind s.layout_map k with
  | none => simp [h]
  | some old =>
      by_cases he : old = l <;> simp [h, he]

theorem UpdateLayoutCache_layout_timestamp (s : State) (k : Nat) (l : RelayLayout) :
    (UpdateLayoutCache s k l).layout_timestamp = s.layout_timestamp := by
  unfold UpdateLayoutCache
  cases h : alFind s.layout_map k with
  | none => simp [h]
  | some old =>
      by_cases he : old = l <;> simp [h, he]

theorem UpdateLayoutCacheAll_timestamp (props : List (Nat × RelayLayout)) (s : State) :
    (UpdateLayoutCacheAll s props).timestamp = s.timestamp := by
  induction props generalizing s with
  | nil => rfl
  | cons p rest ih =>
      simp only [UpdateLayoutCacheAll, List.foldl_cons] at *
      rw [ih, UpdateLayoutCache_timestamp]

theorem UpdateLayoutCacheAll_layout_timestamp (props : List (Nat × RelayLayout)) (s : State) :
    (UpdateLayoutCacheAll s props).layout_timestamp = s.layout_timestamp := by
  induction props generalizing s with
  | nil => rfl
  | cons p rest ih =>
      simp only [UpdateLayoutCacheAll, List.foldl_cons] at *
      rw [ih, UpdateLayoutCache_layout_timestamp]

/-! ## Visits never change the generation counter -/

/-- `GetLayout` preserves `timestamp_`, given that visiting the wrapped node
does. -/
theorem getLayout_preserves_timestamp (g : Rules) (a : Expr)
    (IH : ∀ s l s', VisitExpr g s a = .ok (l, s') → s'.timestamp = s.timestamp) :
    ∀ s l s', GetLayout g s a = .ok (l, s') → s'.timestamp = s.timestamp := by
  intro s l s' h
  unfold GetLayout at h
  cases hfind : alFind s.layout_map a.nid with
  | some l0 =>
      simp only [hfind] at h
      by_cases hts : tsGet s.layout_timestamp a.nid < s.timestamp
      · simp only [if_pos hts] at h
        cases hv : VisitExpr g s a with
        | error err => simp [hv] at h
        | ok p =>
            obtain ⟨l2, s1⟩ := p
            simp only [hv] at h
            obtain ⟨-, h2⟩ := Prod.mk.injEq .. ▸ Except.ok.inj h
            rw [← h2]
            exact IH s l2 s1 hv
      · simp only [if_neg hts] at h
        obtain ⟨-, h2⟩ := Prod.mk.injEq .. ▸ Except.ok.inj h
        rw [← h2]
  | none =>
      simp only [hfind] at h
      cases hv : VisitExpr g s a with
      | error err => simp [hv] at h
      | ok p =>
          obtain ⟨l2, s1⟩ := p
          simp only [hv] at h
          obtain ⟨-, h2⟩ := Prod.mk.injEq .. ▸ Except.ok.inj h
          rw [← h2]
          exact IH s l2 s1 hv

/-- The argument loop preserves `timestamp_`, given that visiting each
argument does. -/
theorem visitArgs_preserves_timestamp (g : Rules) (args : List Expr)
    (IH : ∀ a ∈ args, ∀ s l s', VisitExpr g s a = .ok (l, s') →
      s'.timestamp = s.timestamp) :
    ∀ s ls s', VisitArgs g s args = .ok (ls, s') → s'.timestamp = s.timestamp := by
  induction args with
  | nil =>
      intro s ls s' h
      simp only [VisitArgs, Except.ok.injEq, Prod.mk.injEq] at h
      rw [← h.2]
  | cons a rest ih =>
      intro s ls s' h
      rw [VisitArgs_cons] at h
      cases hgl : GetLayout g s a with
      | error e => simp [hgl] at h
      | ok p =>
          obtain ⟨l1, s1⟩ := p
          simp only [hgl] at h
          cases hrest : VisitArgs g s1 rest with
          | error e => simp [hrest] at h
          | ok q =>
              obtain ⟨ls2, s2⟩ := q
              simp only [hrest, Except.ok.injEq, Prod.mk.injEq] at h
              have e1 : s1.timestamp = s.timestamp :=
                getLayout_preserves_timestamp g a (IH a (by simp)) s l1 s1 hgl
              have e2 : s2.timestamp = s1.timestamp :=
                ih (fun a ha => IH a (by simp [ha])) s1 ls2 s2 hrest
              rw [← h.2, e2, e1]

/-- The visitor never changes the generation counter `timestamp_`; only the
fixed-point loop in `Infer` increments it. -/
theorem visit_preserves_timestamp (g : Rules) :
    ∀ e s l s', VisitExpr g s e = .ok (l, s') → s'.timestamp = s.timestamp := by
  refine exprInd (fun e => ∀ s l s', VisitExpr g s e = .ok (l, s') →
    s'.timestamp = s.timestamp) ?_ ?_ ?_ ?_ ?_ ?_ ?_ ?_ ?_ ?_ ?_ ?_ ?_ ?_ ?_
  case refine_1 =>
    intro i ty s l s' h
    simp only [VisitExpr, Except.ok.injEq] at h
    have hs : s' = (GetCachedLayout s (.var i ty) Layout.undef).2 := by
      rw [h]
    rw [hs, GetCachedLayout_timestamp]
  case refine_9 =>
    intro i ty opId args IH s l s' h
    simp only [VisitExpr] at h
    cases hargs : VisitArgs g s args with
    | error e => simp [hargs] at h
    | ok p =>
        obtain ⟨als, s1⟩ := p
        simp only [hargs] at h
        rcases hgc : GetCachedLayout s1 (Expr.call i ty opId args) Layout.undef with ⟨cl, s2⟩
        simp only [hgc] at h
        have e1 : s1.timestamp = s.timestamp :=
          visitArgs_preserves_timestamp g args IH s als s1 hargs
        have e2 : s2.timestamp = s1.timestamp := by
          have := GetCachedLayout_timestamp s1 (Expr.call i ty opId args) Layout.undef
          rw [hgc] at this
          exact this
        -- the three possible merge outcomes all preserve the timestamp
        have final : ∀ sb : State, sb.timestamp = s2.timestamp →
            (Except.ok (GetCachedLayout
                { sb with layout_timestamp := alSet sb.layout_timestamp i sb.timestamp }
                (Expr.call i ty opId args) Layout.undef) :
              Except String (RelayLayout × State)) =
              Except.ok (l, s') → s'.timestamp = s.timestamp := by
          intro sb hb hh
          rcases hgc2 : GetCachedLayout
              { sb with layout_timestamp := alSet sb.layout_timestamp i sb.timestamp }
              (Expr.call i ty opId args) Layout.undef with ⟨cl2, s4⟩
          rw [hgc2] at hh
          obtain ⟨-, h2⟩ := Prod.mk.injEq .. ▸ Except.ok.inj hh
          have e4 := GetCachedLayout_timestamp
            { sb with layout_timestamp := alSet sb.layout_timestamp i sb.timestamp }
            (Expr.call i ty opId args) Layout.undef
          rw [hgc2] at e4
          rw [← h2, e4]
          simp only []
          rw [hb, e2, e1]
        cases hr : g opId with
        | none =>
            simp only [hr] at h
            exact final s2 rfl h
        | some rule =>
            simp only [hr] at h
            cases hp : rule (args.map Expr.nid ++ [i]) (als ++ [cl])
                (args.map Expr.nty ++ [ty]) args.length with
            | none =>
                simp only [hp] at h
                exact final s2 rfl h
            | some props =>
                simp only [hp] at h
                exact final (UpdateLayoutCacheAll s2 props)
                  (UpdateLayoutCacheAll_timestamp props s2) h
  case refine_10 =>
    intro i ty body IH s l s' h
    simp only [VisitExpr] at h
    exact IH s l s' h
  all_goals
    intro i ty s l s' h
    simp [VisitExpr] at h

/-! ## Claims -/

/-- C1: for every expression node whose kind is not `Var`, `Call`, or
`Function` — i.e. `GlobalVar`, `Constant`, `Tuple`, `TupleGetItem`, `Op`,
`Let`, `If`, `Match`, `RefCreate`, `RefRead`, `RefWrite`, or `Constructor` —
visiting that node raises the fatal unsupported-node-kind error (the
`LOG(FATAL)` naming the node kind) and aborts the run, for every rule
registry and every state (in particular regardless of the layout map's
contents); no default layout is substituted. -/
theorem C1_unsupported_kinds (g : Rules) (s : State) (i : Nat) (ty : RelayType) :
    VisitExpr g s (.globalVar i ty) = .error "GlobalVarNode" ∧
    VisitExpr g s (.constant i ty) = .error "ConstantNode" ∧
    VisitExpr g s (.tupleE i ty) = .error "TupleNode" ∧
    VisitExpr g s (.tupleGetItem i ty) = .error "TupleGetItemNode" ∧
    VisitExpr g s (.opE i ty) = .error "OpNode" ∧
    VisitExpr g s (.letE i ty) = .error "LetNode" ∧
    VisitExpr g s (.ifE i ty) = .error "IfNode" ∧
    VisitExpr g s (.matchE i ty) = .error "MatchNode" ∧
    VisitExpr g s (.refCreate i ty) = .error "RefCreateNode" ∧
    VisitExpr g s (.refRead i ty) = .error "RefReadNode" ∧
    VisitExpr g s (.refWrite i ty) = .error "RefWriteNode" ∧
    VisitExpr g s (.constructorE i ty) = .error "ConstructorNode" :=
  ⟨rfl, rfl, rfl, rfl, rfl, rfl, rfl, rfl, rfl, rfl, rfl, rfl⟩

/-- C8: when the layout map already holds an entry for a variable (e.g. a
pre-seeded `{x : TensorLayout(NHWC)}`), visiting the variable directly
returns exactly the seeded layout and leaves the whole state unchanged — in
particular no default insertion happens and the modified flag is not set. -/
theorem C8_preseeded_var (g : Rules) (s : State) (i : Nat) (ty : RelayType)
    (L : RelayLayout) (h : alFind s.layout_map i = some L) :
    VisitExpr g s (.var i ty) = .ok (L, s) := by
  have h' : alFind s.layout_map (Expr.var i ty).nid = some L := h
  simp [VisitExpr, GetCachedLayout, h']

/-- Witness for C8: the spec's Scenario C (`{x : TensorLayout(NHWC)}`
pre-seeded; visiting `x` returns `NHWC`, state untouched). -/
theorem C8_preseeded_var_witness :
    alFind (initState [(0, RelayLayout.tensor NHWC)]).layout_map 0 =
      some (RelayLayout.tensor NHWC) ∧
    VisitExpr noRules (initState [(0, RelayLayout.tensor NHWC)]) (.var 0 .tensorTy) =
      .ok (RelayLayout.tensor NHWC, initState [(0, RelayLayout.tensor NHWC)]) :=
  ⟨by decide, C8_preseeded_var noRules (initState [(0, RelayLayout.tensor NHWC)])
    0 .tensorTy (RelayLayout.tensor NHWC) (by decide)⟩

/-- C2 as frozen is false at a 1-field tuple type: `GetCachedLayout` computes
`num_outputs` and tests `num_outputs == 1`, so a previously-unseen node of
1-field tuple type gets `TensorLayout(Undef)`, not `TupleLayout([Undef])` as
the claim requires of every N-field tuple type. -/
theorem C2_counterexample :
    (GetCachedLayout (initState []) (.var 0 (.tupleTy 1)) Layout.undef).1 =
      RelayLayout.tensor Layout.undef ∧
    RelayLayout.tensor Layout.undef ≠ RelayLayout.tuple [Layout.undef] := by
  decide

/-- C2 (amended): for a node not yet in the layout map, the cached-or-default
lookup inserts and returns `TensorLayout(Undef)` when the node's static type
is a single tensor OR a 1-field tuple, and `TupleLayout` of N copies of
`Undef` when it is an N-field tuple with N ≠ 1; in both cases the first-time
default insertion sets the modified flag and grows the map's domain. -/
theorem C2_default_insertion (s : State) (e : Expr)
    (h : alFind s.layout_map e.nid = none) :
    ((e.nty = .tensorTy ∨ e.nty = .tupleTy 1) →
      GetCachedLayout s e Layout.undef =
        (RelayLayout.tensor Layout.undef,
          { s with modified := true,
                   layout_map := alSet s.layout_map e.nid
                     (RelayLayout.tensor Layout.undef) })) ∧
    (∀ n, e.nty = .tupleTy n → n ≠ 1 →
      GetCachedLayout s e Layout.undef =
        (RelayLayout.tuple (List.replicate n Layout.undef),
          { s with modified := true,
                   layout_map := alSet s.layout_map e.nid
                     (RelayLayout.tuple (List.replicate n Layout.undef)) })) := by
  constructor
  · intro hty
    rcases hty with hty | hty <;> simp [GetCachedLayout, h, defaultLayoutFor, hty]
  · intro n hty hn
    simp [GetCachedLayout, h, defaultLayoutFor, hty, hn]

/-- Witness for C2 (amended): a fresh 2-field tuple-typed node gets
`TupleLayout([Undef, Undef])`. -/
theorem C2_default_insertion_witness :
    alFind (initState []).layout_map (Expr.var 0 (RelayType.tupleTy 2)).nid = none ∧
    (GetCachedLayout (initState []) (Expr.var 0 (RelayType.tupleTy 2)) Layout.undef).1 =
      RelayLayout.tuple [Layout.undef, Layout.undef] := by
  refine ⟨by decide, ?_⟩
  have h := C2_default_insertion (initState []) (Expr.var 0 (RelayType.tupleTy 2)) (by decide)
  rw [h.2 2 rfl (by decide)]
  decide

/-- C4 as frozen is false: `UpdateLayoutCache` performs no arity validation
whatsoever. Here a node whose current entry is a `TensorLayout` (arity 1,
matching a tensor static type whose implied arity is 1) is handed an arity-2
`TupleLayout` proposal; the engine stores it (no error is raised —
`UpdateLayoutCache` is a total function with no failure path) and the entry's
arity changes from 1 to 2. -/
theorem C4_counterexample :
    UpdateLayoutCache (initState [(0, RelayLayout.tensor NCHW)]) 0
        (RelayLayout.tuple [NCHW, OIHW]) =
      { layout_map := [(0, RelayLayout.tuple [NCHW, OIHW])],
        layout_timestamp := [], modified := true, timestamp := 0 } ∧
    typeArity RelayType.tensorTy = 1 ∧
    relayLayoutArity (RelayLayout.tensor NCHW) = 1 ∧
    relayLayoutArity (RelayLayout.tuple [NCHW, OIHW]) = 2 := by
  decide

/-- C4 (amended): the engine performs no arity (or any other) validation when
merging a proposal or accepting a pre-seeded entry: `UpdateLayoutCache`
either finds the identical value already stored (and leaves the state
untouched), or unconditionally stores the proposed value — whatever its arity
— and sets the modified flag; consequently an entry's arity CAN change after
insertion, and no fail-fast error exists on this path. -/
theorem C4_no_arity_check (s : State) (k : Nat) (l : RelayLayout) :
    (alFind s.layout_map k = some l ∧ UpdateLayoutCache s k l = s) ∨
    (alFind s.layout_map k ≠ some l ∧
      UpdateLayoutCache s k l =
        { s with layout_map := alSet s.layout_map k l, modified := true }) := by
  unfold UpdateLayoutCache
  cases h : alFind s.layout_map k with
  | none =>
      right
      refine ⟨by simp, rfl⟩
  | some old =>
      by_cases he : old = l
      · left
        subst he
        exact ⟨rfl, by simp⟩
      · right
        refine ⟨?_, by simp [he]⟩
        intro hc
        exact he (Option.some.inj hc)

/-- Helper for C9: looking a key up in the pointwise-converted list is the
converted lookup. -/
theorem alFind_collect (m : List (Nat × RelayLayout)) (k : Nat) :
    alFind (m.map (fun p => (p.1, relayLayoutFields p.2))) k =
      (alFind m k).map relayLayoutFields := by
  induction m with
  | nil => simp [alFind]
  | cons p rest ih =>
      obtain ⟨k0, v0⟩ := p
      by_cases h : k0 = k <;> simp [alFind, h, ih]

/-- C9: `collect()` produces one output binding per layout-map entry: the key
list of the output equals the key list of the map (so a map with one entry
per node yields exactly one binding per node), the binding of a node whose
entry is `TensorLayout(l)` is the one-element sequence `[l]`, and the binding
of a node whose entry is `TupleLayout(fields)` is exactly its stored field
sequence. `CollectLayoutInfo` is a pure function of the state (the export
reads the map without modifying it). -/
theorem C9_collect (s : State) (k : Nat) (rl : RelayLayout)
    (h : alFind s.layout_map k = some rl) :
    alFind (CollectLayoutInfo s) k = some (relayLayoutFields rl) ∧
    (CollectLayoutInfo s).map Prod.fst = s.layout_map.map Prod.fst ∧
    (∀ l, rl = RelayLayout.tensor l → relayLayoutFields rl = [l]) ∧
    (∀ fs, rl = RelayLayout.tuple fs → relayLayoutFields rl = fs) := by
  refine ⟨?_, ?_, ?_, ?_⟩
  · rw [CollectLayoutInfo, alFind_collect, h]
    rfl
  · simp [CollectLayoutInfo]
  · intro l hl
    rw [hl]
    rfl
  · intro fs hfs
    rw [hfs]
    rfl

/-- Witness for C9 at a concrete two-entry map holding both a tensor entry
and a tuple entry. -/
theorem C9_collect_witness :
    alFind (initState [(0, RelayLayout.tensor NCHW),
        (1, RelayLayout.tuple [NHWC, OIHW])]).layout_map 1 =
      some (RelayLayout.tuple [NHWC, OIHW]) ∧
    alFind (CollectLayoutInfo (initState [(0, RelayLayout.tensor NCHW),
        (1, RelayLayout.tuple [NHWC, OIHW])])) 1 = some [NHWC, OIHW] := by
  refine ⟨by decide, ?_⟩
  have h := C9_collect (initState [(0, RelayLayout.tensor NCHW),
    (1, RelayLayout.tuple [NHWC, OIHW])]) 1 (RelayLayout.tuple [NHWC, OIHW]) (by decide)
  exact h.1

/-- C7: when a call node's rule is invoked and declines (returns the failure
flag), none of the reporter's proposals are merged: the resulting state is
exactly the post-argument-visit, post-own-cache-lookup state with only the
call's generation stamp recorded (the layout map is untouched by this call's
merge step), and the visit returns the call's current cached-or-default
layout unchanged. -/
theorem C7_rule_decline (g : Rules) (s s1 s2 : State) (i : Nat) (ty : RelayType)
    (opId : Nat) (args : List Expr) (argLayouts : List RelayLayout)
    (cl : RelayLayout) (r : InferRule)
    (hargs : VisitArgs g s args = .ok (argLayouts, s1))
    (hcache : GetCachedLayout s1 (.call i ty opId args) Layout.undef = (cl, s2))
    (hr : g opId = some r)
    (hdecline : r (args.map Expr.nid ++ [i]) (argLayouts ++ [cl])
        (args.map Expr.nty ++ [ty]) args.length = none) :
    VisitExpr g s (.call i ty opId args) =
      .ok (cl, { s2 with
        layout_timestamp := alSet s2.layout_timestamp i s2.timestamp }) := by
  have hf : alFind s2.layout_map (Expr.call i ty opId args).nid = some cl := by
    have h0 := GetCachedLayout_find s1 (.call i ty opId args) Layout.undef
    rw [hcache] at h0
    exact h0
  simp only [VisitExpr, hargs, hcache, hr, hdecline]
  rw [GetCachedLayout_present
    { s2 with layout_timestamp := alSet s2.layout_timestamp i s2.timestamp }
    (.call i ty opId args) Layout.undef cl hf]

/-- Witness for C7: operator 0's rule always declines; visiting
`call(op 0, [x])` from the empty state merges nothing — the state holds only
the default insertions for `x` and the call plus the call's stamp — and the
call's default `TensorLayout(Undef)` is returned. -/
theorem C7_rule_decline_witness :
    declineRules 0 = some declineRule ∧
    VisitExpr declineRules (initState []) (.call 1 .tensorTy 0 [.var 0 .tensorTy]) =
      .ok (RelayLayout.tensor Layout.undef,
        { layout_map := [(0, RelayLayout.tensor Layout.undef),
                         (1, RelayLayout.tensor Layout.undef)],
          layout_timestamp := [(1, 0)], modified := true, timestamp := 0 }) := by
  refine ⟨rfl, ?_⟩
  have h := C7_rule_decline declineRules (initState [])
    { layout_map := [(0, RelayLayout.tensor Layout.undef)],
      layout_timestamp := [], modified := true, timestamp := 0 }
    { layout_map := [(0, RelayLayout.tensor Layout.undef),
                     (1, RelayLayout.tensor Layout.undef)],
      layout_timestamp := [], modified := true, timestamp := 0 }
    1 .tensorTy 0 [.var 0 .tensorTy] [RelayLayout.tensor Layout.undef]
    (RelayLayout.tensor Layout.undef) declineRule (by decide) (by decide) rfl rfl
  exact h

/-- C10: after any successful visit of a call node — whether a rule was found
or not, and whether it succeeded or declined — the call's generation stamp
equals the current round's generation (which the visit has not changed), its
layout is cached in the map, and a subsequent memoized `GetLayout` lookup of
the same call within the same round returns the cached entry with the state
completely unchanged (no re-visit of the node, no rule re-invocation). -/
theorem C10_call_stamped_and_memoized (g : Rules) (s : State) (i : Nat)
    (ty : RelayType) (opId : Nat) (args : List Expr) (l : RelayLayout) (s' : State)
    (h : VisitExpr g s (.call i ty opId args) = .ok (l, s')) :
    tsGet s'.layout_timestamp i = s'.timestamp ∧
    s'.timestamp = s.timestamp ∧
    alFind s'.layout_map i = some l ∧
    GetLayout g s' (.call i ty opId args) = .ok (l, s') := by
  have hts : s'.timestamp = s.timestamp :=
    visit_preserves_timestamp g (.call i ty opId args) s l s' h
  simp only [VisitExpr] at h
  cases hargs : VisitArgs g s args with
  | error e => simp [hargs] at h
  | ok p =>
      obtain ⟨als, s1⟩ := p
      simp only [hargs] at h
      rcases hgc : GetCachedLayout s1 (Expr.call i ty opId args) Layout.undef with ⟨cl, s2⟩
      simp only [hgc] at h
      have final : ∀ sb : State,
          (Except.ok (GetCachedLayout
              { sb with layout_timestamp := alSet sb.layout_timestamp i sb.timestamp }
              (Expr.call i ty opId args) Layout.undef) :
            Except String (RelayLayout × State)) = Except.ok (l, s') →
          tsGet s'.layout_timestamp i = s'.timestamp ∧
          alFind s'.layout_map i = some l ∧
          GetLayout g s' (.call i ty opId args) = .ok (l, s') := by
        intro sb hh
        rcases hgc2 : GetCachedLayout
            { sb with layout_timestamp := alSet sb.layout_timestamp i sb.timestamp }
            (Expr.call i ty opId args) Layout.undef with ⟨cl2, s4⟩
        rw [hgc2] at hh
        obtain ⟨h1, h2⟩ := Prod.mk.injEq .. ▸ Except.ok.inj hh
        have hfind : alFind s'.layout_map i = some l := by
          have h0 := GetCachedLayout_find
            { sb with layout_timestamp := alSet sb.layout_timestamp i sb.timestamp }
            (Expr.call i ty opId args) Layout.undef
          rw [hgc2] at h0
          rw [← h2, ← h1]
          exact h0
        have hlts : s'.layout_timestamp = alSet sb.layout_timestamp i sb.timestamp := by
          have h0 := GetCachedLayout_layout_timestamp
            { sb with layout_timestamp := alSet sb.layout_timestamp i sb.timestamp }
            (Expr.call i ty opId args) Layout.undef
          rw [hgc2] at h0
          rw [← h2]
          exact h0
        have hts4 : s'.timestamp = sb.timestamp := by
          have h0 := GetCachedLayout_timestamp
            { sb with layout_timestamp := alSet sb.layout_timestamp i sb.timestamp }
            (Expr.call i ty opId args) Layout.undef
          rw [hgc2] at h0
          rw [← h2]
          exact h0
        have hstamp : tsGet s'.layout_timestamp i = s'.timestamp := by
          rw [hlts, tsGet_alSet_self, hts4]
        refine ⟨hstamp, hfind, ?_⟩
        have hnl : ¬ (tsGet s'.layout_timestamp (Expr.call i ty opId args).nid <
            s'.timestamp) := by
          have : tsGet s'.layout_timestamp (Expr.call i ty opId args).nid =
              s'.timestamp := hstamp
          rw [this]
          exact lt_irrefl _
        have hfind' : alFind s'.layout_map (Expr.call i ty opId args).nid = some l := hfind
        simp [GetLayout, hfind', hnl]
      cases hr : g opId with
      | none =>
          simp only [hr] at h
          have := final s2 h
          exact ⟨this.1, hts, this.2.1, this.2.2⟩
      | some rule =>
          simp only [hr] at h
          cases hp : rule (args.map Expr.nid ++ [i]) (als ++ [cl])
              (args.map Expr.nty ++ [ty]) args.length with
          | none =>
              simp only [hp] at h
              have := final s2 h
              exact ⟨this.1, hts, this.2.1, this.2.2⟩
          | some props =>
              simp only [hp] at h
              have := final (UpdateLayoutCacheAll s2 props) h
              exact ⟨this.1, hts, this.2.1, this.2.2⟩

/-- `GetLayout` on a rule-free node succeeds and preserves the value of every
entry already in the layout map (it may add default entries for unseen
nodes). -/
theorem ruleFree_getLayout_frame (g : Rules) (a : Expr)
    (IHa : ∀ s, ∃ l s', VisitExpr g s a = .ok (l, s') ∧
      (∀ k v, alFind s.layout_map k = some v → alFind s'.layout_map k = some v) ∧
      alFind s'.layout_map a.nid = some l) :
    ∀ s, ∃ l s', GetLayout g s a = .ok (l, s') ∧
      (∀ k v, alFind s.layout_map k = some v → alFind s'.layout_map k = some v) := by
  intro s
  cases hf : alFind s.layout_map a.nid with
  | some l0 =>
      by_cases hts : tsGet s.layout_timestamp a.nid < s.timestamp
      · obtain ⟨l, t, hvis, hpres, hfind⟩ := IHa s
        refine ⟨l, { t with layout_map := alSet t.layout_map a.nid l }, ?_, ?_⟩
        · simp [GetLayout, hf, hts, hvis]
        · intro k v hk
          have h1 := hpres k v hk
          simp only []
          rw [alSet_eq_self t.layout_map a.nid l hfind]
          exact h1
      · exact ⟨l0, s, by simp [GetLayout, hf, hts], fun k v hk => hk⟩
  | none =>
      obtain ⟨l, t, hvis, hpres, hfind⟩ := IHa s
      refine ⟨l, { t with layout_map := alSet t.layout_map a.nid l }, ?_, ?_⟩
      · simp [GetLayout, hf, hvis]
      · intro k v hk
        have h1 := hpres k v hk
        simp only []
        rw [alSet_eq_self t.layout_map a.nid l hfind]
        exact h1

/-- The argument loop over rule-free arguments succeeds and preserves the
value of every entry already in the layout map. -/
theorem ruleFree_args_frame (g : Rules) (args : List Expr)
    (IH : ∀ a ∈ args, ruleFree g a = true → ∀ s, ∃ l s',
      VisitExpr g s a = .ok (l, s') ∧
      (∀ k v, alFind s.layout_map k = some v → alFind s'.layout_map k = some v) ∧
      alFind s'.layout_map a.nid = some l)
    (hfree : ruleFreeList g args = true) :
    ∀ s, ∃ ls s', VisitArgs g s args = .ok (ls, s') ∧
      (∀ k v, alFind s.layout_map k = some v → alFind s'.layout_map k = some v) := by
  induction args with
  | nil => exact fun s => ⟨[], s, rfl, fun k v hk => hk⟩
  | cons a rest ih =>
      intro s
      simp only [ruleFreeList, Bool.and_eq_true] at hfree
      obtain ⟨ha, hrest⟩ := hfree
      obtain ⟨l1, t1, hgl, hp1⟩ :=
        ruleFree_getLayout_frame g a (IH a (by simp) ha) s
      obtain ⟨ls, t2, hrest', hp2⟩ :=
        ih (fun b hb => IH b (by simp [hb])) hrest t1
      refine ⟨l1 :: ls, t2, ?_, fun k v hk => hp2 k v (hp1 k v hk)⟩
      rw [VisitArgs_cons]
      simp [hgl, hrest']

/-- Visiting a rule-free expression succeeds, preserves the value of every
existing layout-map entry (it may insert default entries for previously
unseen nodes), and afterwards the visited node is cached with the returned
layout. -/
theorem ruleFree_visit_frame (g : Rules) :
    ∀ e, ruleFree g e = true → ∀ s, ∃ l s',
      VisitExpr g s e = .ok (l, s') ∧
      (∀ k v, alFind s.layout_map k = some v → alFind s'.layout_map k = some v) ∧
      alFind s'.layout_map e.nid = some l := by
  refine exprInd (fun e => ruleFree g e = true → ∀ s, ∃ l s',
    VisitExpr g s e = .ok (l, s') ∧
    (∀ k v, alFind s.layout_map k = some v → alFind s'.layout_map k = some v) ∧
    alFind s'.layout_map e.nid = some l) ?_ ?_ ?_ ?_ ?_ ?_ ?_ ?_ ?_ ?_ ?_ ?_ ?_ ?_ ?_
  case refine_1 =>
    intro i ty _ s
    cases hf : alFind s.layout_map i with
    | some v =>
        refine ⟨v, s, ?_, fun k v hk => hk, hf⟩
        have hf' : alFind s.layout_map (Expr.var i ty).nid = some v := hf
        simp [VisitExpr, GetCachedLayout_present s (.var i ty) Layout.undef v hf']
    | none =>
        refine ⟨defaultLayoutFor ty Layout.undef,
          { s with modified := true,
                   layout_map := alSet s.layout_map i (defaultLayoutFor ty Layout.undef) },
          ?_, ?_, ?_⟩
        · simp [VisitExpr, GetCachedLayout, Expr.nid, Expr.nty, hf]
        · intro k v hk
          exact alFind_preserve_of_set s.layout_map i k _ v hf hk
        · exact alFind_alSet_self s.layout_map i (defaultLayoutFor ty Layout.undef)
  case refine_9 =>
    intro i ty opId args IH hfree s
    simp only [ruleFree, Bool.and_eq_true, Option.isNone_iff_eq_none] at hfree
    obtain ⟨hop, hargsfree⟩ := hfree
    obtain ⟨als, s1, hargs, hp1⟩ := ruleFree_args_frame g args IH hargsfree s
    rcases hgc : GetCachedLayout s1 (Expr.call i ty opId args) Layout.undef with ⟨cl, s2⟩
    have hp2 : ∀ k v, alFind s1.layout_map k = some v → alFind s2.layout_map k = some v := by
      intro k v hk
      have h0 := GetCachedLayout_preserve s1 (Expr.call i ty opId args) Layout.undef k v hk
      rw [hgc] at h0
      exact h0
    have hfind2 : alFind s2.layout_map i = some cl := by
      have h0 := GetCachedLayout_find s1 (Expr.call i ty opId args) Layout.undef
      rw [hgc] at h0
      exact h0
    refine ⟨cl, { s2 with layout_timestamp := alSet s2.layout_timestamp i s2.timestamp },
      ?_, ?_, ?_⟩
    · have hf4 : alFind s2.layout_map (Expr.call i ty opId args).nid = some cl := hfind2
      simp only [VisitExpr, hargs, hgc, hop]
      rw [GetCachedLayout_present
        { s2 with layout_timestamp := alSet s2.layout_timestamp i s2.timestamp }
        (.call i ty opId args) Layout.undef cl hf4]
    · intro k v hk
      exact hp2 k v (hp1 k v hk)
    · exact hfind2
  case refine_10 =>
    intro i ty body _ hfree
    simp [ruleFree] at hfree
  all_goals
    intro i ty hfree
    simp [ruleFree] at hfree

/-- C5 as frozen is false: visiting a call node whose OWN operator has no
registered rule can still change existing layout-map entries, because the
recursive argument visits invoke the rules of inner calls. Concretely: from
the state reached by running `Infer` on the bare variable `x` (node 0; its
entry is `TensorLayout(Undef)` and the generation is 1), visiting
`outerCall = call(op 0, [call(op 1, [x])])` — where operator 0 has NO rule
and operator 1's rule proposes `x -> NCHW` — changes node 0's entry from
`Undef` to `NCHW`. -/
theorem C5_counterexample :
    c5Rules 0 = none ∧
    Infer c5Rules (.var 0 .tensorTy) 2 (initState []) =
      .ok (some { layout_map := [(0, RelayLayout.tensor Layout.undef)],
                  layout_timestamp := [], modified := false, timestamp := 1 }) ∧
    alFind ({ layout_map := [(0, RelayLayout.tensor Layout.undef)],
              layout_timestamp := [], modified := false, timestamp := 1 } : State).layout_map 0 =
      some (RelayLayout.tensor Layout.undef) ∧
    (∃ s' : State,
      VisitExpr c5Rules
        { layout_map := [(0, RelayLayout.tensor Layout.undef)],
          layout_timestamp := [], modified := false, timestamp := 1 } outerCall =
        .ok (RelayLayout.tensor Layout.undef, s') ∧
      alFind s'.layout_map 0 = some (RelayLayout.tensor NCHW)) := by
  refine ⟨rfl, by decide, by decide, ?_⟩
  refine ⟨{ layout_map := [(0, RelayLayout.tensor NCHW), (1, RelayLayout.tensor NCHW),
              (2, RelayLayout.tensor Layout.undef)],
            layout_timestamp := [(1, 1), (2, 1)], modified := true, timestamp := 1 },
    by decide, by decide⟩

/-- C5 (amended): visiting a call node whose operator has no registered rule
AND whose arguments are rule-free (built only of variables and of calls whose
operators also have no rule — in particular containing no function nodes and
no call governed by a rule) leaves the value of every existing layout-map
entry unchanged; the visit may only insert fresh default entries for
previously unseen nodes, and it returns the call's prior layout (its existing
cached entry if present, else the freshly inserted default). -/
theorem C5_norule_frame (g : Rules) (s : State) (i : Nat) (ty : RelayType)
    (opId : Nat) (args : List Expr)
    (hop : g opId = none)
    (hargs : ruleFreeList g args = true) :
    ∃ l s', VisitExpr g s (.call i ty opId args) = .ok (l, s') ∧
      (∀ k v, alFind s.layout_map k = some v → alFind s'.layout_map k = some v) ∧
      alFind s'.layout_map i = some l ∧
      (∀ v, alFind s.layout_map i = some v → l = v) := by
  have hfree : ruleFree g (.call i ty opId args) = true := by
    simp [ruleFree, hop, hargs]
  obtain ⟨l, s', hvis, hpres, hfind⟩ :=
    ruleFree_visit_frame g (.call i ty opId args) hfree s
  refine ⟨l, s', hvis, hpres, hfind, ?_⟩
  intro v hv
  have h1 := hpres i v hv
  have hfind' : alFind s'.layout_map i = some l := hfind
  rw [hfind'] at h1
  exact Option.some.inj h1

/-- Witness for C5 (amended): a rule-less call over a pre-seeded variable;
the seeded entry survives the visit and is returned. -/
theorem C5_norule_frame_witness :
    noRules 0 = none ∧
    (∃ l s', VisitExpr noRules (initState [(0, RelayLayout.tensor NHWC)])
        (.call 1 .tensorTy 0 [.var 0 .tensorTy]) = .ok (l, s') ∧
      (∀ k v, alFind (initState [(0, RelayLayout.tensor NHWC)]).layout_map k = some v →
        alFind s'.layout_map k = some v) ∧
      alFind s'.layout_map 1 = some l ∧
      (∀ v, alFind (initState [(0, RelayLayout.tensor NHWC)]).layout_map 1 = some v →
        l = v)) :=
  ⟨rfl, C5_norule_frame noRules (initState [(0, RelayLayout.tensor NHWC)])
    1 .tensorTy 0 [.var 0 .tensorTy] rfl rfl⟩

/-- The conditional fixed-point loop reaches a converged state whenever the
unconditional round iteration stabilizes within the given fuel. -/
theorem inferRounds_of_roundIter (g : Rules) (root : Expr) :
    ∀ N s sN, roundIter g root N s = .ok sN → sN.modified = false →
      ∃ s', InferRounds g root N s = .ok (some s') ∧ s'.modified = false := by
  intro N
  induction N with
  | zero =>
      intro s sN hiter hmod
      simp only [roundIter, Except.ok.injEq] at hiter
      refine ⟨s, ?_, hiter ▸ hmod⟩
      rw [InferRounds]
      have : s.modified = false := hiter ▸ hmod
      simp [this]
  | succ n ih =>
      intro s sN hiter hmod
      by_cases hm : s.modified
      · simp only [roundIter] at hiter
        cases hrr : runRound g root s with
        | error e => rw [hrr] at hiter; exact absurd hiter (by simp)
        | ok s2 =>
            rw [hrr] at hiter
            obtain ⟨s', h1, h2⟩ := ih s2 sN hiter hmod
            refine ⟨s', ?_, h2⟩
            rw [InferRounds]
            simp [hm, hrr, h1]
      · refine ⟨s, ?_, by simpa using hm⟩
        rw [InferRounds]
        simp [hm]

/-- C3: for a rule set that is eventually stable along the run — i.e. after
the initial visit there is a bound N such that N unconditional rounds reach a
state whose modified flag is clear (which is what the spec's monotonicity of
proposals guarantees: nothing new is proposed once the layouts stop
changing) — `Infer` terminates: the fixed-point loop reaches a round in
which no layout-map entry changed (the modified flag stays false) and
returns the converged state. -/
theorem C3_termination (g : Rules) (root : Expr) (s0 s1 : State) (l : RelayLayout)
    (N : Nat) (sN : State)
    (h0 : VisitExpr g s0 root = .ok (l, s1))
    (hiter : roundIter g root N s1 = .ok sN)
    (hstable : sN.modified = false) :
    ∃ s', Infer g root N s0 = .ok (some s') ∧ s'.modified = false := by
  obtain ⟨s', h1, h2⟩ := inferRounds_of_roundIter g root N s1 sN hiter hstable
  refine ⟨s', ?_, h2⟩
  rw [Infer, h0]
  simpa using h1

/-- Witness for C3: the Scenario B run stabilizes after one round (the rule
declines on its second invocation, so round 1 changes nothing), and `Infer`
indeed converges with the modified flag clear. -/
theorem C3_termination_witness :
    VisitExpr convRules (initState []) convCall =
      .ok (RelayLayout.tensor NCHW,
        { layout_map := [(0, RelayLayout.tensor NCHW), (1, RelayLayout.tensor OIHW),
                         (2, RelayLayout.tensor NCHW)],
          layout_timestamp := [(2, 0)], modified := true, timestamp := 0 }) ∧
    (∃ s', Infer convRules convCall 1 (initState []) = .ok (some s') ∧
      s'.modified = false) := by
  refine ⟨by decide, ?_⟩
  exact C3_termination convRules convCall (initState [])
    { layout_map := [(0, RelayLayout.tensor NCHW), (1, RelayLayout.tensor OIHW),
                     (2, RelayLayout.tensor NCHW)],
      layout_timestamp := [(2, 0)], modified := true, timestamp := 0 }
    (RelayLayout.tensor NCHW) 1
    { layout_map := [(0, RelayLayout.tensor NCHW), (1, RelayLayout.tensor OIHW),
                     (2, RelayLayout.tensor NCHW)],
      layout_timestamp := [(2, 1)], modified := false, timestamp := 1 }
    (by decide) (by decide) (by decide)

/-! ## Lemmas toward the idempotence claim -/

theorem state_set_self (s : State) (k : Nat) (v : RelayLayout)
    (h : alFind s.layout_map k = some v) :
    { s with layout_map := alSet s.layout_map k v } = s := by
  rw [alSet_eq_self s.layout_map k v h]

theorem state_tsSet_self (s : State) (k x : Nat)
    (h : alFind s.layout_timestamp k = some x) :
    { s with layout_timestamp := alSet s.layout_timestamp k x } = s := by
  rw [alSet_eq_self s.layout_timestamp k x h]

theorem tsGet_of_find (m : List (Nat × Nat)) (k x : Nat)
    (h : alFind m k = some x) : tsGet m k = x := by
  simp [tsGet, h]

theorem tsGet_of_none (m : List (Nat × Nat)) (k : Nat)
    (h : alFind m k = none) : tsGet m k = 0 := by
  simp [tsGet, h]

theorem GetCachedLayout_mod_mono (s : State) (e : Expr) (d : Layout)
    (h : s.modified = true) : (GetCachedLayout s e d).2.modified = true := by
  unfold GetCachedLayout
  cases hf : alFind s.layout_map e.nid <;> simp [hf, h]

theorem UpdateLayoutCache_mod_mono (s : State) (k : Nat) (l : RelayLayout)
    (h : s.modified = true) : (UpdateLayoutCache s k l).modified = true := by
  unfold UpdateLayoutCache
  cases hf : alFind s.layout_map k with
  | none => simp [hf]
  | some old => by_cases he : old = l <;> simp [hf, he, h]

theorem UpdateLayoutCacheAll_mod_mono (props : List (Nat × RelayLayout)) (s : State)
    (h : s.modified = true) : (UpdateLayoutCacheAll s props).modified = true := by
  induction props generalizing s with
  | nil => exact h
  | cons p rest ih =>
      simp only [UpdateLayoutCacheAll, List.foldl_cons] at *
      exact ih _ (UpdateLayoutCache_mod_mono s p.1 p.2 h)

/-- A merge that leaves the modified flag clear changed nothing: the state is
exactly unchanged and every proposal matched its current entry. -/
theorem updateAll_noop_extract (props : List (Nat × RelayLayout)) :
    ∀ u : State, u.modified = false → (UpdateLayoutCacheAll u props).modified = false →
      UpdateLayoutCacheAll u props = u ∧
      ∀ p ∈ props, alFind u.layout_map p.1 = some p.2 := by
  induction props with
  | nil => exact fun u _ _ => ⟨rfl, by simp⟩
  | cons p rest ih =>
      intro u hu hv
      simp only [UpdateLayoutCacheAll, List.foldl_cons] at hv ⊢
      cases hf : alFind u.layout_map p.1 with
      | none =>
          exfalso
          have h1 : (UpdateLayoutCache u p.1 p.2).modified = true := by
            unfold UpdateLayoutCache
            simp [hf]
          have := UpdateLayoutCacheAll_mod_mono rest (UpdateLayoutCache u p.1 p.2) h1
          simp only [UpdateLayoutCacheAll] at this
          rw [hv] at this
          exact Bool.false_ne_true this
      | some old =>
          by_cases he : old = p.2
          · have hunch : UpdateLayoutCache u p.1 p.2 = u := by
              unfold UpdateLayoutCache
              simp [hf, he]
            rw [hunch] at hv ⊢
            obtain ⟨h1, h2⟩ := ih u hu hv
            refine ⟨h1, ?_⟩
            intro q hq
            rcases List.mem_cons.mp hq with hq | hq
            · rw [hq, hf, he]
            · exact h2 q hq
          · exfalso
            have h1 : (UpdateLayoutCache u p.1 p.2).modified = true := by
              unfold UpdateLayoutCache
              simp [hf, he]
            have := UpdateLayoutCacheAll_mod_mono rest (UpdateLayoutCache u p.1 p.2) h1
            simp only [UpdateLayoutCacheAll] at this
            rw [hv] at this
            exact Bool.false_ne_true this

/-- Merging proposals that all match their current entries is the identity. -/
theorem updateAll_noop_apply (props : List (Nat × RelayLayout)) :
    ∀ u : State, (∀ p ∈ props, alFind u.layout_map p.1 = some p.2) →
      UpdateLayoutCacheAll u props = u := by
  induction props with
  | nil => exact fun u _ => rfl
  | cons p rest ih =>
      intro u h
      simp only [UpdateLayoutCacheAll, List.foldl_cons]
      have hunch : UpdateLayoutCache u p.1 p.2 = u := by
        unfold UpdateLayoutCache
        simp [h p (by simp)]
      rw [hunch]
      exact ih u (fun q hq => h q (by simp [hq]))

/-- `GetLayout` keeps the modified flag set, given that visiting the node
does. -/
theorem getLayout_mod_mono (g : Rules) (a : Expr)
    (IH : ∀ s l s', VisitExpr g s a = .ok (l, s') → s.modified = true →
      s'.modified = true) :
    ∀ s l s', GetLayout g s a = .ok (l, s') → s.modified = true →
      s'.modified = true := by
  intro s l s' h hm
  unfold GetLayout at h
  cases hf : alFind s.layout_map a.nid with
  | some l0 =>
      simp only [hf] at h
      by_cases hts : tsGet s.layout_timestamp a.nid < s.timestamp
      · simp only [if_pos hts] at h
        cases hv : VisitExpr g s a with
        | error err => simp [hv] at h
        | ok p =>
            obtain ⟨l2, s1⟩ := p
            simp only [hv] at h
            obtain ⟨-, h2⟩ := Prod.mk.injEq .. ▸ Except.ok.inj h
            rw [← h2]
            exact IH s l2 s1 hv hm
      · simp only [if_neg hts] at h
        obtain ⟨-, h2⟩ := Prod.mk.injEq .. ▸ Except.ok.inj h
        rw [← h2]
        exact hm
  | none =>
      simp only [hf] at h
      cases hv : VisitExpr g s a with
      | error err => simp [hv] at h
      | ok p =>
          obtain ⟨l2, s1⟩ := p
          simp only [hv] at h
          obtain ⟨-, h2⟩ := Prod.mk.injEq .. ▸ Except.ok.inj h
          rw [← h2]
          exact IH s l2 s1 hv hm

/-- The argument loop keeps the modified flag set. -/
theorem visitArgs_mod_mono (g : Rules) (args : List Expr)
    (IH : ∀ a ∈ args, ∀ s l s', VisitExpr g s a = .ok (l, s') →
      s.modified = true → s'.modified = true) :
    ∀ s ls s', VisitArgs g s args = .ok (ls, s') → s.modified = true →
      s'.modified = true := by
  induction args with
  | nil =>
      intro s ls s' h hm
      simp only [VisitArgs, Except.ok.injEq, Prod.mk.injEq] at h
      rw [← h.2]
      exact hm
  | cons a rest ih =>
      intro s ls s' h hm
      rw [VisitArgs_cons] at h
      cases hgl : GetLayout g s a with
      | error e => simp [hgl] at h
      | ok p =>
          obtain ⟨l1, s1⟩ := p
          simp only [hgl] at h
          cases hrest : VisitArgs g s1 rest with
          | error e => simp [hrest] at h
          | ok q =>
              obtain ⟨ls2, s2⟩ := q
              simp only [hrest, Except.ok.injEq, Prod.mk.injEq] at h
              have e1 : s1.modified = true :=
                getLayout_mod_mono g a (IH a (by simp)) s l1 s1 hgl hm
              have e2 : s2.modified = true :=
                ih (fun a ha => IH a (by simp [ha])) s1 ls2 s2 hrest e1
              rw [← h.2]
              exact e2

/-- Once set within a visit, the modified flag stays set (nothing inside the
visitor clears it; only `Infer`'s round loop does). -/
theorem visit_mod_mono (g : Rules) :
    ∀ e s l s', VisitExpr g s e = .ok (l, s') → s.modified = true →
      s'.modified = true := by
  refine exprInd (fun e => ∀ s l s', VisitExpr g s e = .ok (l, s') →
    s.modified = true → s'.modified = true) ?_ ?_ ?_ ?_ ?_ ?_ ?_ ?_ ?_ ?_ ?_ ?_ ?_ ?_ ?_
  case refine_1 =>
    intro i ty s l s' h hm
    simp only [VisitExpr, Except.ok.injEq] at h
    have hs : s' = (GetCachedLayout s (.var i ty) Layout.undef).2 := by
      rw [h]
    rw [hs]
    exact GetCachedLayout_mod_mono s _ Layout.undef hm
  case refine_9 =>
    intro i ty opId args IH s l s' h hm
    simp only [VisitExpr] at h
    cases hargs : VisitArgs g s args with
    | error e => simp [hargs] at h
    | ok p =>
        obtain ⟨als, s1⟩ := p
        simp only [hargs] at h
        rcases hgc : GetCachedLayout s1 (Expr.call i ty opId args) Layout.undef with ⟨cl, s2⟩
        simp only [hgc] at h
        have e1 : s1.modified = true :=
          visitArgs_mod_mono g args IH s als s1 hargs hm
        have e2 : s2.modified = true := by
          have h0 := GetCachedLayout_mod_mono s1 (Expr.call i ty opId args) Layout.undef e1
          rw [hgc] at h0
          exact h0
        have final : ∀ sb : State, sb.modified = true →
            (Except.ok (GetCachedLayout
                { sb with layout_timestamp := alSet sb.layout_timestamp i sb.timestamp }
                (Expr.call i ty opId args) Layout.undef) :
              Except String (RelayLayout × State)) = Except.ok (l, s') →
            s'.modified = true := by
          intro sb hb hh
          rcases hgc2 : GetCachedLayout
              { sb with layout_timestamp := alSet sb.layout_timestamp i sb.timestamp }
              (Expr.call i ty opId args) Layout.undef with ⟨cl2, s4⟩
          rw [hgc2] at hh
          obtain ⟨-, h2⟩ := Prod.mk.injEq .. ▸ Except.ok.inj hh
          have h0 := GetCachedLayout_mod_mono
            { sb with layout_timestamp := alSet sb.layout_timestamp i sb.timestamp }
            (Expr.call i ty opId args) Layout.undef hb
          rw [hgc2] at h0
          rw [← h2]
          exact h0
        cases hr : g opId with
        | none =>
            simp only [hr] at h
            exact final s2 e2 h
        | some rule =>
            simp only [hr] at h
            cases hp : rule (args.map Expr.nid ++ [i]) (als ++ [cl])
                (args.map Expr.nty ++ [ty]) args.length with
            | none =>
                simp only [hp] at h
                exact final s2 e2 h
            | some props =>
                simp only [hp] at h
                exact final (UpdateLayoutCacheAll s2 props)
                  (UpdateLayoutCacheAll_mod_mono props s2 e2) h
  case refine_10 =>
    intro i ty body IH s l s' h hm
    simp only [VisitExpr] at h
    exact IH s l s' h hm
  all_goals
    intro i ty s l s' h hm
    simp [VisitExpr] at h

/-! ## A fresh (converged) expression is a visit fixpoint -/

/-- `GetLayout` in the cached (present and not stale) case. -/
theorem getLayout_cached (g : Rules) (s : State) (e : Expr) (v : RelayLayout)
    (hv : alFind s.layout_map e.nid = some v)
    (hts : ¬ tsGet s.layout_timestamp e.nid < s.timestamp) :
    GetLayout g s e = .ok (v, s) := by
  unfold GetLayout
  simp only [hv, if_neg hts]

/-- `GetLayout` in the stale (present, older generation) case. -/
theorem getLayout_recompute_present (g : Rules) (s : State) (e : Expr)
    (v l : RelayLayout) (t : State)
    (hv : alFind s.layout_map e.nid = some v)
    (hts : tsGet s.layout_timestamp e.nid < s.timestamp)
    (hvis : VisitExpr g s e = .ok (l, t)) :
    GetLayout g s e = .ok (l, { t with layout_map := alSet t.layout_map e.nid l }) := by
  unfold GetLayout
  simp only [hv, if_pos hts, hvis]

/-- `GetLayout` in the absent case. -/
theorem getLayout_recompute_absent (g : Rules) (s : State) (e : Expr)
    (l : RelayLayout) (t : State)
    (hv : alFind s.layout_map e.nid = none)
    (hvis : VisitExpr g s e = .ok (l, t)) :
    GetLayout g s e = .ok (l, { t with layout_map := alSet t.layout_map e.nid l }) := by
  unfold GetLayout
  simp only [hv, hvis]

/-- The argument loop over fresh arguments returns their cached values and
leaves the state exactly unchanged. -/
theorem argsFresh_visitArgs_fix (g : Rules) (s : State) (args : List Expr)
    (IH : ∀ a ∈ args, ArgFresh g s a → GetLayout g s a = .ok (argVal s a, s))
    (h : ArgsFresh g s args) :
    VisitArgs g s args = .ok (args.map (argVal s), s) := by
  induction args with
  | nil => rfl
  | cons a rest ih =>
      simp only [ArgsFresh] at h
      rw [VisitArgs_cons]
      simp [IH a (by simp) h.1, ih (fun b hb hfb => IH b (by simp [hb]) hfb) h.2]

/-- Visiting a fresh (converged) expression returns its resolved value and
leaves the state exactly unchanged; likewise for the memoized argument
lookup. -/
theorem fresh_fix (g : Rules) :
    ∀ e s, (FreshDirect g s e → VisitExpr g s e = .ok (readVal s e, s)) ∧
      (ArgFresh g s e → GetLayout g s e = .ok (argVal s e, s)) := by
  refine exprInd (fun e => ∀ s,
    (FreshDirect g s e → VisitExpr g s e = .ok (readVal s e, s)) ∧
    (ArgFresh g s e → GetLayout g s e = .ok (argVal s e, s))) ?_ ?_ ?_ ?_ ?_ ?_ ?_ ?_ ?_ ?_ ?_ ?_ ?_ ?_ ?_
  case refine_1 =>
    intro j ty s
    constructor
    · intro hF
      obtain ⟨v, hv⟩ := hF
      have hv' : alFind s.layout_map (Expr.var j ty).nid = some v := hv
      simp [VisitExpr, GetCachedLayout_present s (.var j ty) Layout.undef v hv',
        readVal, Expr.nid, hv]
    · intro hA
      obtain ⟨v, hv⟩ := hA
      have hv' : alFind s.layout_map (Expr.var j ty).nid = some v := hv
      have hval : argVal s (Expr.var j ty) = v := by
        simp [argVal, Expr.nid, hv]
      by_cases hts : tsGet s.layout_timestamp (Expr.var j ty).nid < s.timestamp
      · have hvis : VisitExpr g s (.var j ty) = .ok (v, s) := by
          simp [VisitExpr, GetCachedLayout_present s (.var j ty) Layout.undef v hv']
        have h0 := getLayout_recompute_present g s (.var j ty) v v s hv' hts hvis
        rw [state_set_self s _ v hv'] at h0
        rw [h0, hval]
      · rw [getLayout_cached g s (.var j ty) v hv' hts, hval]
  case refine_9 =>
    intro i ty opId args IH s
    constructor
    · intro hF
      obtain ⟨hargs, ⟨cl, hcl⟩, hstamp, hmerge⟩ := hF
      have h1 : VisitArgs g s args = .ok (args.map (argVal s), s) :=
        argsFresh_visitArgs_fix g s args (fun a ha hfa => ((IH a ha) s).2 hfa) hargs
      have hcl' : alFind s.layout_map (Expr.call i ty opId args).nid = some cl := hcl
      have h2 : GetCachedLayout s (Expr.call i ty opId args) Layout.undef = (cl, s) :=
        GetCachedLayout_present s _ Layout.undef cl hcl'
      have hgetd : (alFind s.layout_map i).getD (RelayLayout.tensor Layout.undef) = cl := by
        rw [hcl]
        rfl
      have hread : readVal s (Expr.call i ty opId args) = cl := by
        simp [readVal, Expr.nid, hcl]
      unfold MergeNoop at hmerge
      rw [hgetd] at hmerge
      simp only [VisitExpr, h1, h2]
      cases hr : g opId with
      | none =>
          simp only [hr]
          rw [state_tsSet_self s i s.timestamp hstamp, h2, hread]
      | some rule =>
          simp only [hr] at hmerge ⊢
          cases hp : rule (args.map Expr.nid ++ [i]) (args.map (argVal s) ++ [cl])
              (args.map Expr.nty ++ [ty]) args.length with
          | none =>
              simp only [hp]
              rw [state_tsSet_self s i s.timestamp hstamp, h2, hread]
          | some props =>
              simp only [hp] at hmerge ⊢
              rw [updateAll_noop_apply props s hmerge]
              rw [state_tsSet_self s i s.timestamp hstamp, h2, hread]
    · intro hA
      obtain ⟨hts, v, hv⟩ := hA
      have hv' : alFind s.layout_map (Expr.call i ty opId args).nid = some v := hv
      have hts' : ¬ tsGet s.layout_timestamp (Expr.call i ty opId args).nid < s.timestamp := hts
      rw [getLayout_cached g s (.call i ty opId args) v hv' hts']
      simp [argVal, Expr.nid, hv]
  case refine_10 =>
    intro j ty body IH s
    constructor
    · intro hF
      have hF' : FreshDirect g s body := hF
      have hvis := (IH s).1 hF'
      have : VisitExpr g s (Expr.function j ty body) = VisitExpr g s body := rfl
      rw [this, hvis]
      rfl
    · intro hA
      simp only [ArgFresh] at hA
      by_cases hts : tsGet s.layout_timestamp j < s.timestamp
      · rw [if_pos hts] at hA
        obtain ⟨hb, hsync⟩ := hA
        have hvis := (IH s).1 hb
        have hsync' : alFind s.layout_map (Expr.function j ty body).nid =
            some (readVal s body) := hsync
        have hts' : tsGet s.layout_timestamp (Expr.function j ty body).nid < s.timestamp := hts
        have hvis' : VisitExpr g s (Expr.function j ty body) = .ok (readVal s body, s) := by
          have heq : VisitExpr g s (Expr.function j ty body) = VisitExpr g s body := rfl
          rw [heq, hvis]
        have h0 := getLayout_recompute_present g s (Expr.function j ty body)
          (readVal s body) (readVal s body) s hsync' hts' hvis'
        rw [state_set_self s _ _ hsync'] at h0
        rw [h0]
        simp [argVal, Expr.nid, hsync]
      · rw [if_neg hts] at hA
        obtain ⟨v, hv⟩ := hA
        have hv' : alFind s.layout_map (Expr.function j ty body).nid = some v := hv
        have hts' : ¬ tsGet s.layout_timestamp (Expr.function j ty body).nid < s.timestamp := hts
        rw [getLayout_cached g s (Expr.function j ty body) v hv' hts']
        simp [argVal, Expr.nid, hv]
  all_goals
    intro j ty s
    constructor
    · intro hF
      exact absurd hF (by simp [FreshDirect])
    · intro hA
      simp only [ArgFresh] at hA
      obtain ⟨hts, v, hv⟩ := hA
      rw [getLayout_cached g s _ v hv hts]
      simp [argVal, hv]

/-! ## The later-state relation within a modification-free round -/

theorem Later.rfl' (F C : Nat → Prop) (B : Nat → Expr → Prop) (u : State) :
    Later F C B u u :=
  ⟨rfl, fun _ _ => rfl, fun _ _ => Or.inl rfl, fun _ => Or.inl rfl⟩

/-- Membership form of `ClsList`. -/
theorem clsList_mem (F C : Nat → Prop) (B : Nat → Expr → Prop) :
    ∀ args, ClsList F C B args → ∀ a ∈ args, Cls F C B a := by
  intro args
  induction args with
  | nil => intro _ a ha; simp at ha
  | cons b rest ih =>
      intro h a ha
      simp only [ClsList] at h
      rcases List.mem_cons.mp ha with ha | ha
      · rw [ha]; exact h.1
      · exact ih h.2 a ha

/-- Membership form of `ArgsFresh`. -/
theorem argsFresh_mem (g : Rules) (s : State) :
    ∀ args, ArgsFresh g s args → ∀ a ∈ args, ArgFresh g s a := by
  intro args
  induction args with
  | nil => intro _ a ha; simp at ha
  | cons b rest ih =>
      intro h a ha
      simp only [ArgsFresh] at h
      rcases List.mem_cons.mp ha with ha | ha
      · rw [ha]; exact h.1
      · exact ih h.2 a ha

/-- Build `ArgsFresh` from memberships. -/
theorem argsFresh_of_mem (g : Rules) (s : State) :
    ∀ args, (∀ a ∈ args, ArgFresh g s a) → ArgsFresh g s args := by
  intro args
  induction args with
  | nil => intro _; trivial
  | cons b rest ih =>
      intro h
      exact ⟨h b (by simp), ih (fun a ha => h a (by simp [ha]))⟩

/-- A non-function, non-call identity keeps its timestamp across `Later`. -/
theorem tsGet_eq_of_later {F C : Nat → Prop} {B : Nat → Expr → Prop} {u v : State}
    (L : Later F C B u v) (k : Nat) (hC : ¬ C k) :
    tsGet v.layout_timestamp k = tsGet u.layout_timestamp k := by
  rcases L.lts k with h | ⟨hc, _⟩
  · simp [tsGet, h]
  · exact absurd hc hC

/-- `readVal` is stable across `Later` on classified expressions (their
resolved value is read off non-function identities, which `Later` keeps). -/
theorem readVal_eq_of_later (F C : Nat → Prop) (B : Nat → Expr → Prop) (u v : State)
    (L : Later F C B u v) :
    ∀ b, Cls F C B b → readVal v b = readVal u b := by
  refine exprInd (fun b => Cls F C B b → readVal v b = readVal u b)
    ?_ ?_ ?_ ?_ ?_ ?_ ?_ ?_ ?_ ?_ ?_ ?_ ?_ ?_ ?_
  case refine_9 =>
    intro i ty opId args _ hcls
    simp only [Cls] at hcls
    simp [readVal, Expr.nid, L.map_nonfn i hcls.1]
  case refine_10 =>
    intro j ty body IH hcls
    simp only [Cls] at hcls
    simp only [readVal]
    exact IH hcls.2.2.2
  all_goals
    intro j ty hcls
    simp only [Cls] at hcls
    simp [readVal, Expr.nid, L.map_nonfn j hcls.1]

/-- A fresh argument's cached value is stable across `Later`. -/
theorem argVal_eq_of_later (g : Rules) (F C : Nat → Prop) (B : Nat → Expr → Prop)
    (u v : State) (hBfun : ∀ k b b', B k b → B k b' → b = b')
    (L : Later F C B u v) (hLts : LtsOK C u) (a : Expr)
    (hcls : Cls F C B a) (ha : ArgFresh g u a) : argVal v a = argVal u a := by
  cases a with
  | function j ty b =>
      simp only [Cls] at hcls
      obtain ⟨hF, hC, hB, hclsb⟩ := hcls
      rcases L.map_fn j hF with h | ⟨hcond, b', hb', hv⟩
      · simp [argVal, Expr.nid, h]
      · rw [hBfun j b' b hb' hB] at hv
        simp only [ArgFresh] at ha
        by_cases hts : tsGet u.layout_timestamp j < u.timestamp
        · rw [if_pos hts] at ha
          obtain ⟨-, hsync⟩ := ha
          have hv' : alFind v.layout_map (Expr.function j ty b).nid =
              some (readVal u b) := hv
          have hsync' : alFind u.layout_map (Expr.function j ty b).nid =
              some (readVal u b) := hsync
          simp [argVal, hv', hsync']
        · rw [if_neg hts] at ha
          obtain ⟨x, hx⟩ := ha
          rcases hcond with hpos | hnone
          · exfalso
            have h0 : tsGet u.layout_timestamp j = 0 := by
              cases hf : alFind u.layout_timestamp j with
              | none => exact tsGet_of_none _ _ hf
              | some x0 => exact absurd (hLts j x0 hf).2 hC
            rw [h0] at hts
            exact hts hpos
          · exfalso
            rw [hx] at hnone
            exact Option.noConfusion hnone
  | var j ty =>
      simp only [Cls] at hcls
      simp [argVal, Expr.nid, L.map_nonfn j hcls.1]
  | globalVar j ty =>
      simp only [Cls] at hcls
      simp [argVal, Expr.nid, L.map_nonfn j hcls.1]
  | constant j ty =>
      simp only [Cls] at hcls
      simp [argVal, Expr.nid, L.map_nonfn j hcls.1]
  | tupleE j ty =>
      simp only [Cls] at hcls
      simp [argVal, Expr.nid, L.map_nonfn j hcls.1]
  | tupleGetItem j ty =>
      simp only [Cls] at hcls
      simp [argVal, Expr.nid, L.map_nonfn j hcls.1]
  | opE j ty =>
      simp only [Cls] at hcls
      simp [argVal, Expr.nid, L.map_nonfn j hcls.1]
  | letE j ty =>
      simp only [Cls] at hcls
      simp [argVal, Expr.nid, L.map_nonfn j hcls.1]
  | ifE j ty =>
      simp only [Cls] at hcls
      simp [argVal, Expr.nid, L.map_nonfn j hcls.1]
  | call j ty opId cargs =>
      simp only [Cls] at hcls
      simp [argVal, Expr.nid, L.map_nonfn j hcls.1]
  | matchE j ty =>
      simp only [Cls] at hcls
      simp [argVal, Expr.nid, L.map_nonfn j hcls.1]
  | refCreate j ty =>
      simp only [Cls] at hcls
      simp [argVal, Expr.nid, L.map_nonfn j hcls.1]
  | refRead j ty =>
      simp only [Cls] at hcls
      simp [argVal, Expr.nid, L.map_nonfn j hcls.1]
  | refWrite j ty =>
      simp only [Cls] at hcls
      simp [argVal, Expr.nid, L.map_nonfn j hcls.1]
  | constructorE j ty =>
      simp only [Cls] at hcls
      simp [argVal, Expr.nid, L.map_nonfn j hcls.1]

/-- `Later` composes along a modification-free stretch. -/
theorem Later.trans' (F C : Nat → Prop) (B : Nat → Expr → Prop) (u v w : State)
    (hBcls : ∀ k b, B k b → Cls F C B b)
    (L1 : Later F C B u v) (L2 : Later F C B v w) : Later F C B u w := by
  refine ⟨?_, ?_, ?_, ?_⟩
  · rw [L2.ts_eq, L1.ts_eq]
  · intro k hF
    rw [L2.map_nonfn k hF, L1.map_nonfn k hF]
  · intro k hF
    rcases L2.map_fn k hF with h2 | ⟨hcond2, b, hb, hw⟩
    · rcases L1.map_fn k hF with h1 | ⟨hcond1, b, hb, hv⟩
      · exact Or.inl (by rw [h2, h1])
      · exact Or.inr ⟨hcond1, b, hb, by rw [h2, hv]⟩
    · have hrv : readVal v b = readVal u b :=
        readVal_eq_of_later F C B u v L1 b (hBcls k b hb)
      refine Or.inr ⟨?_, b, hb, by rw [hw, hrv]⟩
      rcases hcond2 with hpos | hnone
      · exact Or.inl (by rw [← L1.ts_eq]; exact hpos)
      · rcases L1.map_fn k hF with h1 | ⟨-, b', -, hv⟩
        · exact Or.inr (by rw [← h1]; exact hnone)
        · rw [hv] at hnone
          exact Option.noConfusion hnone
  · intro k
    rcases L2.lts k with h2 | ⟨hc, h2⟩
    · rcases L1.lts k with h1 | ⟨hc, h1⟩
      · exact Or.inl (by rw [h2, h1])
      · exact Or.inr ⟨hc, by rw [h2, h1]⟩
    · exact Or.inr ⟨hc, by rw [h2, L1.ts_eq]⟩

/-- A no-op merge transfers to any state with the same rule inputs in which
every matched proposal target still stores its matched value. -/
theorem mergeNoop_transfer (g : Rules) (u v : State) (i : Nat) (ty : RelayType)
    (opId : Nat) (args : List Expr)
    (hargs : args.map (argVal v) = args.map (argVal u))
    (hcl : (alFind v.layout_map i).getD (RelayLayout.tensor Layout.undef) =
           (alFind u.layout_map i).getD (RelayLayout.tensor Layout.undef))
    (hkeep : ∀ p : Nat × RelayLayout, p.1 ∈ (args.map Expr.nid ++ [i]) →
      alFind u.layout_map p.1 = some p.2 → alFind v.layout_map p.1 = some p.2)
    (hScoped : RulesScoped g)
    (hm : MergeNoop g u i ty opId args) : MergeNoop g v i ty opId args := by
  unfold MergeNoop at hm ⊢
  rw [hargs, hcl]
  cases hr : g opId with
  | none => simp
  | some r =>
      simp only [hr] at hm ⊢
      cases hp : r (args.map Expr.nid ++ [i])
          (args.map (argVal u) ++
            [(alFind u.layout_map i).getD (RelayLayout.tensor Layout.undef)])
          (args.map Expr.nty ++ [ty]) args.length with
      | none => simp [hp]
      | some props =>
          simp only [hp] at hm ⊢
          intro p hpmem
          exact hkeep p
            (hScoped opId r _ _ _ _ props hr hp p hpmem)
            (hm p hpmem)

/-- A value stored at a fresh argument's identity survives `Later`: the
identity is either non-function (untouched) or an already-synced function
entry (re-synced to the same value). -/
theorem stored_persist (g : Rules) (F C : Nat → Prop) (B : Nat → Expr → Prop)
    (u v : State) (hBfun : ∀ k b b', B k b → B k b' → b = b')
    (L : Later F C B u v) (hLts : LtsOK C u) (a : Expr)
    (hcls : Cls F C B a) (ha : ArgFresh g u a) :
    ∀ val, alFind u.layout_map a.nid = some val →
      alFind v.layout_map a.nid = some val := by
  intro val hval
  cases a with
  | function j ty b =>
      simp only [Cls] at hcls
      obtain ⟨hF, hC, hB, hclsb⟩ := hcls
      rcases L.map_fn j hF with h | ⟨hcond, b', hb', hv⟩
      · rw [show (Expr.function j ty b).nid = j from rfl] at hval ⊢
        rw [h]
        exact hval
      · rw [hBfun j b' b hb' hB] at hv
        simp only [ArgFresh] at ha
        rw [show (Expr.function j ty b).nid = j from rfl] at hval ⊢
        by_cases hts : tsGet u.layout_timestamp j < u.timestamp
        · rw [if_pos hts] at ha
          obtain ⟨-, hsync⟩ := ha
          rw [hval] at hsync
          rw [hv, ← Option.some.inj hsync]
        · rw [if_neg hts] at ha
          rcases hcond with hpos | hnone
          · exfalso
            have h0 : tsGet u.layout_timestamp j = 0 := by
              cases hf : alFind u.layout_timestamp j with
              | none => exact tsGet_of_none _ _ hf
              | some x0 => exact absurd (hLts j x0 hf).2 hC
            rw [h0] at hts
            exact hts hpos
          · exfalso
            rw [hval] at hnone
            exact Option.noConfusion hnone
  | var j ty =>
      simp only [Cls] at hcls
      simp only [Expr.nid] at hval ⊢
      rw [L.map_nonfn j hcls.1]
      exact hval
  | globalVar j ty =>
      simp only [Cls] at hcls
      simp only [Expr.nid] at hval ⊢
      rw [L.map_nonfn j hcls.1]
      exact hval
  | constant j ty =>
      simp only [Cls] at hcls
      simp only [Expr.nid] at hval ⊢
      rw [L.map_nonfn j hcls.1]
      exact hval
  | tupleE j ty =>
      simp only [Cls] at hcls
      simp only [Expr.nid] at hval ⊢
      rw [L.map_nonfn j hcls.1]
      exact hval
  | tupleGetItem j ty =>
      simp only [Cls] at hcls
      simp only [Expr.nid] at hval ⊢
      rw [L.map_nonfn j hcls.1]
      exact hval
  | opE j ty =>
      simp only [Cls] at hcls
      simp only [Expr.nid] at hval ⊢
      rw [L.map_nonfn j hcls.1]
      exact hval
  | letE j ty =>
      simp only [Cls] at hcls
      simp only [Expr.nid] at hval ⊢
      rw [L.map_nonfn j hcls.1]
      exact hval
  | ifE j ty =>
      simp only [Cls] at hcls
      simp only [Expr.nid] at hval ⊢
      rw [L.map_nonfn j hcls.1]
      exact hval
  | call j ty opId cargs =>
      simp only [Cls] at hcls
      simp only [Expr.nid] at hval ⊢
      rw [L.map_nonfn j hcls.1]
      exact hval
  | matchE j ty =>
      simp only [Cls] at hcls
      simp only [Expr.nid] at hval ⊢
      rw [L.map_nonfn j hcls.1]
      exact hval
  | refCreate j ty =>
      simp only [Cls] at hcls
      simp only [Expr.nid] at hval ⊢
      rw [L.map_nonfn j hcls.1]
      exact hval
  | refRead j ty =>
      simp only [Cls] at hcls
      simp only [Expr.nid] at hval ⊢
      rw [L.map_nonfn j hcls.1]
      exact hval
  | refWrite j ty =>
      simp only [Cls] at hcls
      simp only [Expr.nid] at hval ⊢
      rw [L.map_nonfn j hcls.1]
      exact hval
  | constructorE j ty =>
      simp only [Cls] at hcls
      simp only [Expr.nid] at hval ⊢
      rw [L.map_nonfn j hcls.1]
      exact hval


/-- Freshness persists to any later state of the same modification-free
stretch. -/
theorem fresh_persist (g : Rules) (F C : Nat → Prop) (B : Nat → Expr → Prop)
    (hBfun : ∀ k b b', B k b → B k b' → b = b')
    (hScoped : RulesScoped g)
    (u v : State) (L : Later F C B u v) (hLts : LtsOK C u) :
    ∀ e, Cls F C B e →
      (FreshDirect g u e → FreshDirect g v e) ∧
      (ArgFresh g u e → ArgFresh g v e) := by
  refine exprInd (fun e => Cls F C B e →
    (FreshDirect g u e → FreshDirect g v e) ∧
    (ArgFresh g u e → ArgFresh g v e)) ?_ ?_ ?_ ?_ ?_ ?_ ?_ ?_ ?_ ?_ ?_ ?_ ?_ ?_ ?_
  case refine_1 =>
    intro j ty hcls
    simp only [Cls] at hcls
    constructor
    · intro h
      obtain ⟨x, hx⟩ := h
      exact ⟨x, by rw [L.map_nonfn j hcls.1]; exact hx⟩
    · intro h
      obtain ⟨x, hx⟩ := h
      exact ⟨x, by rw [L.map_nonfn j hcls.1]; exact hx⟩
  case refine_9 =>
    intro i ty opId args IH hcls
    simp only [Cls] at hcls
    obtain ⟨hFi, hCi, hclsargs⟩ := hcls
    constructor
    · intro h
      obtain ⟨hargsF, ⟨cl, hcl⟩, hstamp, hmerge⟩ := h
      refine ⟨?_, ⟨cl, by rw [L.map_nonfn i hFi]; exact hcl⟩, ?_, ?_⟩
      · refine argsFresh_of_mem g v args ?_
        intro a ha
        exact ((IH a ha (clsList_mem F C B args hclsargs a ha)).2)
          (argsFresh_mem g u args hargsF a ha)
      · rcases L.lts i with hl | ⟨-, hl⟩
        · rw [hl, hstamp, L.ts_eq]
        · rw [hl, L.ts_eq]
      · have hinputs : args.map (argVal v) = args.map (argVal u) := by
          refine List.map_congr_left ?_
          intro a ha
          exact argVal_eq_of_later g F C B u v hBfun L hLts a
            (clsList_mem F C B args hclsargs a ha)
            (argsFresh_mem g u args hargsF a ha)
        have hincl : (alFind v.layout_map i).getD (RelayLayout.tensor Layout.undef) =
            (alFind u.layout_map i).getD (RelayLayout.tensor Layout.undef) := by
          rw [L.map_nonfn i hFi]
        refine mergeNoop_transfer g u v i ty opId args hinputs hincl ?_ hScoped hmerge
        intro p hpmem hstore
        rcases List.mem_append.mp hpmem with hmem | hmem
        · obtain ⟨a, ha, hanid⟩ := List.mem_map.mp hmem
          rw [← hanid] at hstore ⊢
          exact stored_persist g F C B u v hBfun L hLts a
            (clsList_mem F C B args hclsargs a ha)
            (argsFresh_mem g u args hargsF a ha) p.2 hstore
        · have hpi : p.1 = i := by simpa using hmem
          rw [hpi] at hstore ⊢
          rw [L.map_nonfn i hFi]
          exact hstore
    · intro h
      obtain ⟨hts, x, hx⟩ := h
      constructor
      · rcases L.lts i with hl | ⟨-, hl⟩
        · rw [tsGet, hl, ← tsGet, L.ts_eq]
          exact hts
        · rw [tsGet_of_find _ _ _ hl, L.ts_eq]
          exact lt_irrefl _
      · exact ⟨x, by rw [L.map_nonfn i hFi]; exact hx⟩
  case refine_10 =>
    intro j ty body IH hcls
    simp only [Cls] at hcls
    obtain ⟨hF, hC, hB, hclsb⟩ := hcls
    have hrv : readVal v body = readVal u body :=
      readVal_eq_of_later F C B u v L body hclsb
    constructor
    · intro h
      exact (IH hclsb).1 h
    · intro h
      simp only [ArgFresh] at h ⊢
      have htsv : tsGet v.layout_timestamp j = tsGet u.layout_timestamp j :=
        tsGet_eq_of_later L j hC
      by_cases hts : tsGet u.layout_timestamp j < u.timestamp
      · rw [if_pos hts] at h
        obtain ⟨hb, hsync⟩ := h
        rw [if_pos (by rw [htsv, L.ts_eq]; exact hts)]
        refine ⟨(IH hclsb).1 hb, ?_⟩
        rcases L.map_fn j hF with hl | ⟨-, b', hb', hv⟩
        · rw [hl, hsync, hrv]
        · rw [hBfun j b' body hb' hB] at hv
          rw [hv, hrv]
      · rw [if_neg hts] at h
        obtain ⟨x, hx⟩ := h
        rw [if_neg (by rw [htsv, L.ts_eq]; exact hts)]
        rcases L.map_fn j hF with hl | ⟨-, b', hb', hv⟩
        · exact ⟨x, by rw [hl]; exact hx⟩
        · exact ⟨readVal u b', hv⟩
  all_goals
    intro j ty hcls
    simp only [Cls] at hcls
    constructor
    · intro h
      simp [FreshDirect] at h
    · intro h
      simp only [ArgFresh] at h ⊢
      obtain ⟨hts, x, hx⟩ := h
      refine ⟨?_, x, by rw [L.map_nonfn _ hcls.1]; exact hx⟩
      rw [tsGet_eq_of_later L _ hcls.2, L.ts_eq]
      exact hts

/-- Stamping a call identity with the current generation preserves `LtsOK`. -/
theorem ltsOK_stamp (C : Nat → Prop) (s : State) (i : Nat) (hC : C i)
    (h : LtsOK C s) :
    LtsOK C { s with layout_timestamp := alSet s.layout_timestamp i s.timestamp } := by
  intro k x hk
  simp only [] at hk
  by_cases hki : k = i
  · subst hki
    rw [alFind_alSet_self] at hk
    exact ⟨le_of_eq (Option.some.inj hk).symm, hC⟩
  · rw [alFind_alSet_ne _ _ _ _ hki] at hk
    exact h k x hk

/-- `LtsOK` only depends on the timestamp map and the generation. -/
theorem ltsOK_congr (C : Nat → Prop) (s t : State)
    (hl : t.layout_timestamp = s.layout_timestamp) (ht : t.timestamp = s.timestamp)
    (h : LtsOK C s) : LtsOK C t := by
  intro k x hk
  rw [hl] at hk
  rw [ht]
  exact h k x hk

/-- `GetLayout` preserves `LtsOK`, given that visiting the node does. -/
theorem getLayout_ltsOK (g : Rules) (C : Nat → Prop) (a : Expr)
    (IH : ∀ s l s', VisitExpr g s a = .ok (l, s') → LtsOK C s → LtsOK C s') :
    ∀ s l s', GetLayout g s a = .ok (l, s') → LtsOK C s → LtsOK C s' := by
  intro s l s' h hok
  unfold GetLayout at h
  cases hf : alFind s.layout_map a.nid with
  | some l0 =>
      simp only [hf] at h
      by_cases hts : tsGet s.layout_timestamp a.nid < s.timestamp
      · simp only [if_pos hts] at h
        cases hv : VisitExpr g s a with
        | error err => simp [hv] at h
        | ok p =>
            obtain ⟨l2, s1⟩ := p
            simp only [hv] at h
            obtain ⟨-, h2⟩ := Prod.mk.injEq .. ▸ Except.ok.inj h
            rw [← h2]
            exact ltsOK_congr C s1 _ rfl rfl (IH s l2 s1 hv hok)
      · simp only [if_neg hts] at h
        obtain ⟨-, h2⟩ := Prod.mk.injEq .. ▸ Except.ok.inj h
        rw [← h2]
        exact hok
  | none =>
      simp only [hf] at h
      cases hv : VisitExpr g s a with
      | error err => simp [hv] at h
      | ok p =>
          obtain ⟨l2, s1⟩ := p
          simp only [hv] at h
          obtain ⟨-, h2⟩ := Prod.mk.injEq .. ▸ Except.ok.inj h
          rw [← h2]
          exact ltsOK_congr C s1 _ rfl rfl (IH s l2 s1 hv hok)

/-- The argument loop preserves `LtsOK`, given that visiting each argument
does. -/
theorem visitArgs_ltsOK (g : Rules) (C : Nat → Prop) (args : List Expr)
    (IH : ∀ a ∈ args, ∀ s l s', VisitExpr g s a = .ok (l, s') →
      LtsOK C s → LtsOK C s') :
    ∀ s ls s', VisitArgs g s args = .ok (ls, s') → LtsOK C s → LtsOK C s' := by
  induction args with
  | nil =>
      intro s ls s' h hok
      simp only [VisitArgs, Except.ok.injEq, Prod.mk.injEq] at h
      rw [← h.2]
      exact hok
  | cons a rest ih =>
      intro s ls s' h hok
      rw [VisitArgs_cons] at h
      cases hgl : GetLayout g s a with
      | error e => simp [hgl] at h
      | ok p =>
          obtain ⟨l1, s1⟩ := p
          simp only [hgl] at h
          cases hrest : VisitArgs g s1 rest with
          | error e => simp [hrest] at h
          | ok q =>
              obtain ⟨ls2, s2⟩ := q
              simp only [hrest, Except.ok.injEq, Prod.mk.injEq] at h
              have e1 : LtsOK C s1 :=
                getLayout_ltsOK g C a (IH a (by simp)) s l1 s1 hgl hok
              have e2 : LtsOK C s2 :=
                ih (fun a ha => IH a (by simp [ha])) s1 ls2 s2 hrest e1
              rw [← h.2]
              exact e2

/-- The visitor preserves `LtsOK` on classified expressions: the only
timestamp-map writes stamp call identities with the current generation. -/
theorem visit_ltsOK (g : Rules) (F C : Nat → Prop) (B : Nat → Expr → Prop) :
    ∀ e, Cls F C B e → ∀ s l s', VisitExpr g s e = .ok (l, s') →
      LtsOK C s → LtsOK C s' := by
  refine exprInd (fun e => Cls F C B e → ∀ s l s', VisitExpr g s e = .ok (l, s') →
    LtsOK C s → LtsOK C s') ?_ ?_ ?_ ?_ ?_ ?_ ?_ ?_ ?_ ?_ ?_ ?_ ?_ ?_ ?_
  case refine_1 =>
    intro i ty _ s l s' h hok
    simp only [VisitExpr, Except.ok.injEq] at h
    have hs : s' = (GetCachedLayout s (.var i ty) Layout.undef).2 := by rw [h]
    rw [hs]
    exact ltsOK_congr C s _ (GetCachedLayout_layout_timestamp s _ _)
      (GetCachedLayout_timestamp s _ _) hok
  case refine_9 =>
    intro i ty opId args IH hcls s l s' h hok
    simp only [Cls] at hcls
    obtain ⟨-, hCi, hclsargs⟩ := hcls
    simp only [VisitExpr] at h
    cases hargs : VisitArgs g s args with
    | error e => simp [hargs] at h
    | ok p =>
        obtain ⟨als, s1⟩ := p
        simp only [hargs] at h
        rcases hgc : GetCachedLayout s1 (Expr.call i ty opId args) Layout.undef with ⟨cl, s2⟩
        simp only [hgc] at h
        have e1 : LtsOK C s1 :=
          visitArgs_ltsOK g C args
            (fun a ha => IH a ha (clsList_mem F C B args hclsargs a ha))
            s als s1 hargs hok
        have e2 : LtsOK C s2 := by
          refine ltsOK_congr C s1 s2 ?_ ?_ e1
          · have h0 := GetCachedLayout_layout_timestamp s1 (Expr.call i ty opId args) Layout.undef
            rw [hgc] at h0
            exact h0
          · have h0 := GetCachedLayout_timestamp s1 (Expr.call i ty opId args) Layout.undef
            rw [hgc] at h0
            exact h0
        have final : ∀ sb : State, LtsOK C sb →
            (Except.ok (GetCachedLayout
                { sb with layout_timestamp := alSet sb.layout_timestamp i sb.timestamp }
                (Expr.call i ty opId args) Layout.undef) :
              Except String (RelayLayout × State)) = Except.ok (l, s') →
            LtsOK C s' := by
          intro sb hb hh
          rcases hgc2 : GetCachedLayout
              { sb with layout_timestamp := alSet sb.layout_timestamp i sb.timestamp }
              (Expr.call i ty opId args) Layout.undef with ⟨cl2, s4⟩
          rw [hgc2] at hh
          obtain ⟨-, h2⟩ := Prod.mk.injEq .. ▸ Except.ok.inj hh
          have hstamped : LtsOK C
              { sb with layout_timestamp := alSet sb.layout_timestamp i sb.timestamp } :=
            ltsOK_stamp C sb i hCi hb
          refine ltsOK_congr C _ s' ?_ ?_ hstamped <;>
            [skip; skip] <;> rw [← h2]
          · have h0 := GetCachedLayout_layout_timestamp
              { sb with layout_timestamp := alSet sb.layout_timestamp i sb.timestamp }
              (Expr.call i ty opId args) Layout.undef
            rw [hgc2] at h0
            exact h0
          · have h0 := GetCachedLayout_timestamp
              { sb with layout_timestamp := alSet sb.layout_timestamp i sb.timestamp }
              (Expr.call i ty opId args) Layout.undef
            rw [hgc2] at h0
            exact h0
        cases hr : g opId with
        | none =>
            simp only [hr] at h
            exact final s2 e2 h
        | some rule =>
            simp only [hr] at h
            cases hp : rule (args.map Expr.nid ++ [i]) (als ++ [cl])
                (args.map Expr.nty ++ [ty]) args.length with
            | none =>
                simp only [hp] at h
                exact final s2 e2 h
            | some props =>
                simp only [hp] at h
                refine final (UpdateLayoutCacheAll s2 props) ?_ h
                exact ltsOK_congr C s2 _
                  (UpdateLayoutCacheAll_layout_timestamp props s2)
                  (UpdateLayoutCacheAll_timestamp props s2) e2
  case refine_10 =>
    intro i ty body IH hcls s l s' h hok
    simp only [Cls] at hcls
    simp only [VisitExpr] at h
    exact IH hcls.2.2.2 s l s' h hok
  all_goals
    intro i ty _ s l s' h hok
    simp [VisitExpr] at h

/-- The argument loop of a call on classified arguments, within a
modification-free stretch: the resulting state is `Later` than the input,
every argument is fresh in it, and the collected layouts are exactly the
arguments' cached values. -/
theorem master_args (g : Rules) (F C : Nat → Prop) (B : Nat → Expr → Prop)
    (hBfun : ∀ k b b', B k b → B k b' → b = b')
    (hBcls : ∀ k b, B k b → Cls F C B b)
    (hScoped : RulesScoped g) :
    ∀ args : List Expr,
      (∀ a ∈ args, Cls F C B a → ∀ u l v, u.modified = false → LtsOK C u →
        GetLayout g u a = .ok (l, v) → v.modified = false →
        Later F C B u v ∧ LtsOK C v ∧ ArgFresh g v a ∧ argVal v a = l) →
      ClsList F C B args →
      ∀ u ls v, u.modified = false → LtsOK C u → VisitArgs g u args = .ok (ls, v) →
        v.modified = false →
        Later F C B u v ∧ LtsOK C v ∧ ArgsFresh g v args ∧
          ls = args.map (argVal v) := by
  intro args
  induction args with
  | nil =>
      intro _ _ u ls v hu hok h hv
      simp only [VisitArgs, Except.ok.injEq, Prod.mk.injEq] at h
      obtain ⟨h1, h2⟩ := h
      rw [← h2, ← h1]
      exact ⟨Later.rfl' F C B u, hok, trivial, rfl⟩
  | cons a rest ih =>
      intro IH hcls u ls v hu hok h hv
      simp only [ClsList] at hcls
      rw [VisitArgs_cons] at h
      cases hgl : GetLayout g u a with
      | error e => simp [hgl] at h
      | ok p =>
          obtain ⟨l1, t1⟩ := p
          simp only [hgl] at h
          cases hrest : VisitArgs g t1 rest with
          | error e => simp [hrest] at h
          | ok q =>
              obtain ⟨ls2, s2⟩ := q
              simp only [hrest, Except.ok.injEq, Prod.mk.injEq] at h
              obtain ⟨h1, h2⟩ := h
              have ht1 : t1.modified = false := by
                by_contra hne
                have ht : t1.modified = true := by
                  cases hmm : t1.modified
                  · exact absurd hmm hne
                  · rfl
                have hs2 := visitArgs_mod_mono g rest
                  (fun b _ => visit_mod_mono g b) t1 ls2 s2 hrest ht
                rw [h2] at hs2
                rw [hs2] at hv
                exact Bool.noConfusion hv
              have hs2mod : s2.modified = false := by rw [h2]; exact hv
              obtain ⟨L1, ok1, af1, hval1⟩ :=
                IH a (by simp) hcls.1 u l1 t1 hu hok hgl ht1
              obtain ⟨L2, ok2, af2, hls2⟩ :=
                ih (fun b hb => IH b (by simp [hb])) hcls.2 t1 ls2 s2 ht1 ok1
                  hrest hs2mod
              rw [← h2]
              refine ⟨Later.trans' F C B u t1 s2 hBcls L1 L2, ok2, ?_, ?_⟩
              · exact ⟨(fresh_persist g F C B hBfun hScoped t1 s2 L2 ok1 a hcls.1).2 af1,
                  af2⟩
              · rw [← h1, hls2]
                have : argVal s2 a = argVal t1 a :=
                  argVal_eq_of_later g F C B t1 s2 hBfun L2 ok1 a hcls.1 af1
                rw [List.map_cons, this, hval1]

/-- Main induction for idempotence: within a modification-free stretch of a
round, a successful visit moves the state `Later`, leaves the visited
expression fresh (so a repeated visit is an exact no-op) and returns its
resolved value; likewise for the memoized argument lookup. -/
theorem master (g : Rules) (F C : Nat → Prop) (B : Nat → Expr → Prop)
    (hBfun : ∀ k b b', B k b → B k b' → b = b')
    (hBcls : ∀ k b, B k b → Cls F C B b)
    (hScoped : RulesScoped g) :
    ∀ e, Cls F C B e →
      (∀ u l v, u.modified = false → LtsOK C u →
        VisitExpr g u e = .ok (l, v) → v.modified = false →
        Later F C B u v ∧ LtsOK C v ∧ FreshDirect g v e ∧ readVal v e = l) ∧
      (∀ u l v, u.modified = false → LtsOK C u →
        GetLayout g u e = .ok (l, v) → v.modified = false →
        Later F C B u v ∧ LtsOK C v ∧ ArgFresh g v e ∧ argVal v e = l) := by
  refine exprInd (fun e => Cls F C B e →
    (∀ u l v, u.modified = false → LtsOK C u →
      VisitExpr g u e = .ok (l, v) → v.modified = false →
      Later F C B u v ∧ LtsOK C v ∧ FreshDirect g v e ∧ readVal v e = l) ∧
    (∀ u l v, u.modified = false → LtsOK C u →
      GetLayout g u e = .ok (l, v) → v.modified = false →
      Later F C B u v ∧ LtsOK C v ∧ ArgFresh g v e ∧ argVal v e = l))
    ?_ ?_ ?_ ?_ ?_ ?_ ?_ ?_ ?_ ?_ ?_ ?_ ?_ ?_ ?_
  case refine_1 =>
    intro j ty hcls
    simp only [Cls] at hcls
    have hdir : ∀ u l v, u.modified = false → LtsOK C u →
        VisitExpr g u (.var j ty) = .ok (l, v) → v.modified = false →
        Later F C B u v ∧ LtsOK C v ∧ FreshDirect g v (.var j ty) ∧
          readVal v (.var j ty) = l := by
      intro u l v hu hok h hv
      simp only [VisitExpr, Except.ok.injEq] at h
      cases hf : alFind u.layout_map j with
      | none =>
          exfalso
          have hf' : alFind u.layout_map (Expr.var j ty).nid = none := hf
          have hmod : (GetCachedLayout u (Expr.var j ty) Layout.undef).2.modified = true := by
            unfold GetCachedLayout
            simp [hf']
          rw [h] at hmod
          rw [hv] at hmod
          exact Bool.noConfusion hmod
      | some x =>
          have hf' : alFind u.layout_map (Expr.var j ty).nid = some x := hf
          rw [GetCachedLayout_present u _ Layout.undef x hf'] at h
          obtain ⟨hl, hvv⟩ := Prod.mk.injEq .. ▸ h
          rw [← hvv, ← hl]
          exact ⟨Later.rfl' F C B u, hok, ⟨x, hf⟩, by simp [readVal, Expr.nid, hf]⟩
    refine ⟨hdir, ?_⟩
    intro u l v hu hok h hv
    cases hf : alFind u.layout_map j with
    | none =>
        exfalso
        have hf' : alFind u.layout_map (Expr.var j ty).nid = none := hf
        have hvis : VisitExpr g u (.var j ty) =
            .ok (defaultLayoutFor ty Layout.undef,
              { u with
                  modified := true,
                  layout_map := alSet u.layout_map j (defaultLayoutFor ty Layout.undef) }) := by
          simp [VisitExpr, GetCachedLayout, Expr.nid, Expr.nty, hf]
        have h0 := getLayout_recompute_absent g u (.var j ty) _ _ hf' hvis
        rw [h0] at h
        obtain ⟨-, hvv⟩ := Prod.mk.injEq .. ▸ Except.ok.inj h
        rw [← hvv] at hv
        exact Bool.noConfusion hv
    | some x =>
        have hf' : alFind u.layout_map (Expr.var j ty).nid = some x := hf
        have hconc : l = x → v = u →
            Later F C B u v ∧ LtsOK C v ∧ ArgFresh g v (.var j ty) ∧
              argVal v (.var j ty) = l := by
          intro hl hvv
          rw [hvv, hl]
          exact ⟨Later.rfl' F C B u, hok, ⟨x, hf⟩, by simp [argVal, Expr.nid, hf]⟩
        by_cases hts : tsGet u.layout_timestamp (Expr.var j ty).nid < u.timestamp
        · have hvis : VisitExpr g u (.var j ty) = .ok (x, u) := by
            simp [VisitExpr, GetCachedLayout_present u _ Layout.undef x hf']
          have h0 := getLayout_recompute_present g u (.var j ty) x x u hf' hts hvis
          rw [state_set_self u _ x hf'] at h0
          rw [h0] at h
          obtain ⟨hl, hvv⟩ := Prod.mk.injEq .. ▸ Except.ok.inj h
          exact hconc hl.symm hvv.symm
        · rw [getLayout_cached g u _ x hf' hts] at h
          obtain ⟨hl, hvv⟩ := Prod.mk.injEq .. ▸ Except.ok.inj h
          exact hconc hl.symm hvv.symm
  case refine_9 =>
    intro i ty opId args IH hcls
    simp only [Cls] at hcls
    obtain ⟨hFi, hCi, hclsargs⟩ := hcls
    have IH2 : ∀ a ∈ args, Cls F C B a → ∀ u l v, u.modified = false → LtsOK C u →
        GetLayout g u a = .ok (l, v) → v.modified = false →
        Later F C B u v ∧ LtsOK C v ∧ ArgFresh g v a ∧ argVal v a = l :=
      fun a ha hc => ((IH a ha) hc).2
    have hdir : ∀ u l v, u.modified = false → LtsOK C u →
        VisitExpr g u (.call i ty opId args) = .ok (l, v) → v.modified = false →
        Later F C B u v ∧ LtsOK C v ∧ FreshDirect g v (.call i ty opId args) ∧
          readVal v (.call i ty opId args) = l := by
      intro u l v hu hok h hv
      simp only [VisitExpr] at h
      cases hargs : VisitArgs g u args with
      | error e => simp [hargs] at h
      | ok p =>
        obtain ⟨als, u1⟩ := p
        simp only [hargs] at h
        rcases hgc : GetCachedLayout u1 (Expr.call i ty opId args) Layout.undef with ⟨cl, u2⟩
        simp only [hgc] at h
        have modback : ∀ s3 : State,
            (Except.ok (GetCachedLayout
                { s3 with layout_timestamp := alSet s3.layout_timestamp i s3.timestamp }
                (Expr.call i ty opId args) Layout.undef) :
              Except String (RelayLayout × State)) = Except.ok (l, v) →
            s3.modified = false := by
          intro s3 hh
          by_contra hne
          have ht : s3.modified = true := by
            cases hmm : s3.modified
            · exact absurd hmm hne
            · rfl
          rcases hgc2 : GetCachedLayout
              { s3 with layout_timestamp := alSet s3.layout_timestamp i s3.timestamp }
              (Expr.call i ty opId args) Layout.undef with ⟨cl2, s5⟩
          rw [hgc2] at hh
          obtain ⟨-, h2⟩ := Prod.mk.injEq .. ▸ Except.ok.inj hh
          have h0 := GetCachedLayout_mod_mono
            { s3 with layout_timestamp := alSet s3.layout_timestamp i s3.timestamp }
            (Expr.call i ty opId args) Layout.undef ht
          rw [hgc2] at h0
          rw [← h2] at hv
          rw [hv] at h0
          exact Bool.noConfusion h0
        -- establish that the merge left the state at u2, and u2 = u1
        have hsteps : u2.modified = false ∧
            MergeNoop g u1 i ty opId args →
            True := fun _ => trivial
        clear hsteps
        have hfinish : alFind u1.layout_map i = some cl → u2 = u1 →
            als = args.map (argVal u1) →
            Later F C B u u1 → LtsOK C u1 → ArgsFresh g u1 args →
            MergeNoop g u1 i ty opId args →
            (Except.ok (GetCachedLayout
                { u1 with layout_timestamp := alSet u1.layout_timestamp i u1.timestamp }
                (Expr.call i ty opId args) Layout.undef) :
              Except String (RelayLayout × State)) = Except.ok (l, v) →
            Later F C B u v ∧ LtsOK C v ∧ FreshDirect g v (.call i ty opId args) ∧
              readVal v (.call i ty opId args) = l := by
          intro hfind1 _ _ L1 ok1 argsF hmn hh
          have hfind4 : alFind ({ u1 with
              layout_timestamp := alSet u1.layout_timestamp i u1.timestamp } :
                State).layout_map (Expr.call i ty opId args).nid = some cl := hfind1
          rw [GetCachedLayout_present _ _ _ cl hfind4] at hh
          obtain ⟨hl, hvv⟩ := Prod.mk.injEq .. ▸ Except.ok.inj hh
          have L2 : Later F C B u1
              { u1 with layout_timestamp := alSet u1.layout_timestamp i u1.timestamp } := by
            refine ⟨rfl, fun k _ => rfl, fun k _ => Or.inl rfl, ?_⟩
            intro k
            by_cases hki : k = i
            · subst hki
              exact Or.inr ⟨hCi, alFind_alSet_self _ _ _⟩
            · exact Or.inl (alFind_alSet_ne _ _ _ _ hki)
          rw [← hvv, ← hl]
          refine ⟨Later.trans' F C B u u1 _ hBcls L1 L2,
            ltsOK_stamp C u1 i hCi ok1, ?_, ?_⟩
          · refine ⟨?_, ⟨cl, hfind1⟩, ?_, ?_⟩
            · refine argsFresh_of_mem g _ args ?_
              intro a ha
              exact (fresh_persist g F C B hBfun hScoped u1 _ L2 ok1 a
                (clsList_mem F C B args hclsargs a ha)).2
                (argsFresh_mem g u1 args argsF a ha)
            · simp only []
              exact alFind_alSet_self _ _ _
            · exact hmn
          · simp [readVal, Expr.nid, hfind1]
        -- the three merge branches
        cases hr : g opId with
        | none =>
            simp only [hr] at h
            have hu2 : u2.modified = false := modback u2 h
            have hu1 : u1.modified = false := by
              by_contra hne
              have ht : u1.modified = true := by
                cases hmm : u1.modified
                · exact absurd hmm hne
                · rfl
              have h0 := GetCachedLayout_mod_mono u1 (Expr.call i ty opId args)
                Layout.undef ht
              rw [hgc] at h0
              rw [hu2] at h0
              exact Bool.noConfusion h0
            have hpres : alFind u1.layout_map (Expr.call i ty opId args).nid = some cl ∧
                u2 = u1 := by
              cases hf1 : alFind u1.layout_map (Expr.call i ty opId args).nid with
              | none =>
                  exfalso
                  have hmod : (GetCachedLayout u1 (Expr.call i ty opId args)
                      Layout.undef).2.modified = true := by
                    unfold GetCachedLayout
                    simp [hf1]
                  rw [hgc] at hmod
                  rw [hu2] at hmod
                  exact Bool.noConfusion hmod
              | some x =>
                  have := GetCachedLayout_present u1 (Expr.call i ty opId args)
                    Layout.undef x hf1
                  rw [hgc] at this
                  obtain ⟨h1, h2⟩ := Prod.mk.injEq .. ▸ this
                  exact ⟨by rw [h1], h2⟩
            obtain ⟨hfind1, hu21⟩ := hpres
            have hfind1i : alFind u1.layout_map i = some cl := hfind1
            obtain ⟨L1, ok1, argsF, halse⟩ := master_args g F C B hBfun hBcls hScoped
              args IH2 hclsargs u als u1 hu hok hargs hu1
            have hmn : MergeNoop g u1 i ty opId args := by
              unfold MergeNoop
              rw [hr]
              trivial
            rw [hu21] at h
            exact hfinish hfind1i hu21 halse L1 ok1 argsF hmn h
        | some r =>
            simp only [hr] at h
            cases hp : r (args.map Expr.nid ++ [i]) (als ++ [cl])
                (args.map Expr.nty ++ [ty]) args.length with
            | none =>
                simp only [hp] at h
                have hu2 : u2.modified = false := modback u2 h
                have hu1 : u1.modified = false := by
                  by_contra hne
                  have ht : u1.modified = true := by
                    cases hmm : u1.modified
                    · exact absurd hmm hne
                    · rfl
                  have h0 := GetCachedLayout_mod_mono u1 (Expr.call i ty opId args)
                    Layout.undef ht
                  rw [hgc] at h0
                  rw [hu2] at h0
                  exact Bool.noConfusion h0
                have hpres : alFind u1.layout_map (Expr.call i ty opId args).nid = some cl ∧
                    u2 = u1 := by
                  cases hf1 : alFind u1.layout_map (Expr.call i ty opId args).nid with
                  | none =>
                      exfalso
                      have hmod : (GetCachedLayout u1 (Expr.call i ty opId args)
                          Layout.undef).2.modified = true := by
                        unfold GetCachedLayout
                        simp [hf1]
                      rw [hgc] at hmod
                      rw [hu2] at hmod
                      exact Bool.noConfusion hmod
                  | some x =>
                      have := GetCachedLayout_present u1 (Expr.call i ty opId args)
                        Layout.undef x hf1
                      rw [hgc] at this
                      obtain ⟨h1, h2⟩ := Prod.mk.injEq .. ▸ this
                      exact ⟨by rw [h1], h2⟩
                obtain ⟨hfind1, hu21⟩ := hpres
                have hfind1i : alFind u1.layout_map i = some cl := hfind1
                obtain ⟨L1, ok1, argsF, halse⟩ := master_args g F C B hBfun hBcls hScoped
                  args IH2 hclsargs u als u1 hu hok hargs hu1
                have hgetd : (alFind u1.layout_map i).getD
                    (RelayLayout.tensor Layout.undef) = cl := by
                  rw [hfind1i]
                  rfl
                have hmn : MergeNoop g u1 i ty opId args := by
                  unfold MergeNoop
                  simp only [hr]
                  have hinputs : args.map (argVal u1) ++
                      [(alFind u1.layout_map i).getD (RelayLayout.tensor Layout.undef)] =
                      als ++ [cl] := by
                    rw [halse, hgetd]
                  rw [hinputs]
                  simp only [hp]
                rw [hu21] at h
                exact hfinish hfind1i hu21 halse L1 ok1 argsF hmn h
            | some props =>
                simp only [hp] at h
                have hall : (UpdateLayoutCacheAll u2 props).modified = false :=
                  modback (UpdateLayoutCacheAll u2 props) h
                have hu2 : u2.modified = false := by
                  by_contra hne
                  have ht : u2.modified = true := by
                    cases hmm : u2.modified
                    · exact absurd hmm hne
                    · rfl
                  have h0 := UpdateLayoutCacheAll_mod_mono props u2 ht
                  rw [hall] at h0
                  exact Bool.noConfusion h0
                have hu1 : u1.modified = false := by
                  by_contra hne
                  have ht : u1.modified = true := by
                    cases hmm : u1.modified
                    · exact absurd hmm hne
                    · rfl
                  have h0 := GetCachedLayout_mod_mono u1 (Expr.call i ty opId args)
                    Layout.undef ht
                  rw [hgc] at h0
                  rw [hu2] at h0
                  exact Bool.noConfusion h0
                have hpres : alFind u1.layout_map (Expr.call i ty opId args).nid = some cl ∧
                    u2 = u1 := by
                  cases hf1 : alFind u1.layout_map (Expr.call i ty opId args).nid with
                  | none =>
                      exfalso
                      have hmod : (GetCachedLayout u1 (Expr.call i ty opId args)
                          Layout.undef).2.modified = true := by
                        unfold GetCachedLayout
                        simp [hf1]
                      rw [hgc] at hmod
                      rw [hu2] at hmod
                      exact Bool.noConfusion hmod
                  | some x =>
                      have := GetCachedLayout_present u1 (Expr.call i ty opId args)
                        Layout.undef x hf1
                      rw [hgc] at this
                      obtain ⟨h1, h2⟩ := Prod.mk.injEq .. ▸ this
                      exact ⟨by rw [h1], h2⟩
                obtain ⟨hfind1, hu21⟩ := hpres
                have hfind1i : alFind u1.layout_map i = some cl := hfind1
                obtain ⟨hupd, hmatched⟩ := updateAll_noop_extract props u2 hu2 hall
                obtain ⟨L1, ok1, argsF, halse⟩ := master_args g F C B hBfun hBcls hScoped
                  args IH2 hclsargs u als u1 hu hok hargs hu1
                have hgetd : (alFind u1.layout_map i).getD
                    (RelayLayout.tensor Layout.undef) = cl := by
                  rw [hfind1i]
                  rfl
                have hmn : MergeNoop g u1 i ty opId args := by
                  unfold MergeNoop
                  simp only [hr]
                  have hinputs : args.map (argVal u1) ++
                      [(alFind u1.layout_map i).getD (RelayLayout.tensor Layout.undef)] =
                      als ++ [cl] := by
                    rw [halse, hgetd]
                  rw [hinputs]
                  simp only [hp]
                  intro p hpmem
                  have := hmatched p hpmem
                  rw [hu21] at this
                  exact this
                rw [hupd, hu21] at h
                exact hfinish hfind1i hu21 halse L1 ok1 argsF hmn h
    refine ⟨hdir, ?_⟩
    intro u l v hu hok h hv
    have hrecomp : ∀ l2 w, VisitExpr g u (.call i ty opId args) = .ok (l2, w) →
        l = l2 →
        v = { w with layout_map :=
                alSet w.layout_map (Expr.call i ty opId args).nid l2 } →
        Later F C B u v ∧ LtsOK C v ∧ ArgFresh g v (.call i ty opId args) ∧
          argVal v (.call i ty opId args) = l := by
      intro l2 w hvis hl hvv
      have hwmod : w.modified = false := by
        have : v.modified = w.modified := by rw [hvv]
        rw [← this]
        exact hv
      obtain ⟨L1, ok1, fr, hrv⟩ := hdir u l2 w hu hok hvis hwmod
      obtain ⟨argsF, ⟨clw, hclw⟩, hstampw, hmnw⟩ := fr
      have hclw2 : clw = l2 := by
        have : readVal w (Expr.call i ty opId args) = clw := by
          simp [readVal, Expr.nid, hclw]
        rw [this] at hrv
        exact hrv
      have hfindw : alFind w.layout_map (Expr.call i ty opId args).nid = some l2 := by
        rw [← hclw2]
        exact hclw
      have hveq : v = w := by
        rw [hvv, state_set_self w _ l2 hfindw]
      rw [hveq, hl]
      refine ⟨L1, ok1, ?_, ?_⟩
      · refine ⟨?_, l2, hfindw⟩
        rw [tsGet_of_find _ _ _ hstampw]
        exact lt_irrefl _
      · simp [argVal, hfindw]
    cases hf : alFind u.layout_map (Expr.call i ty opId args).nid with
    | none =>
        unfold GetLayout at h
        simp only [hf] at h
        cases hvis : VisitExpr g u (.call i ty opId args) with
        | error e => simp [hvis] at h
        | ok p =>
            obtain ⟨l2, w⟩ := p
            simp only [hvis] at h
            obtain ⟨hl, hvv⟩ := Prod.mk.injEq .. ▸ Except.ok.inj h
            exact hrecomp l2 w hvis hl.symm hvv.symm
    | some x =>
        by_cases hts : tsGet u.layout_timestamp (Expr.call i ty opId args).nid < u.timestamp
        · unfold GetLayout at h
          simp only [hf, if_pos hts] at h
          cases hvis : VisitExpr g u (.call i ty opId args) with
          | error e => simp [hvis] at h
          | ok p =>
              obtain ⟨l2, w⟩ := p
              simp only [hvis] at h
              obtain ⟨hl, hvv⟩ := Prod.mk.injEq .. ▸ Except.ok.inj h
              exact hrecomp l2 w hvis hl.symm hvv.symm
        · rw [getLayout_cached g u _ x hf hts] at h
          obtain ⟨hl, hvv⟩ := Prod.mk.injEq .. ▸ Except.ok.inj h
          rw [← hvv, ← hl]
          exact ⟨Later.rfl' F C B u, hok, ⟨hts, x, hf⟩, by simp [argVal, hf]⟩
  case refine_10 =>
    intro j ty body IH hcls
    simp only [Cls] at hcls
    obtain ⟨hF, hC, hB, hclsb⟩ := hcls
    have hdir : ∀ u l v, u.modified = false → LtsOK C u →
        VisitExpr g u (.function j ty body) = .ok (l, v) → v.modified = false →
        Later F C B u v ∧ LtsOK C v ∧ FreshDirect g v (.function j ty body) ∧
          readVal v (.function j ty body) = l := by
      intro u l v hu hok h hv
      have h' : VisitExpr g u body = .ok (l, v) := h
      obtain ⟨L, ok1, fr, hrv⟩ := (IH hclsb).1 u l v hu hok h' hv
      exact ⟨L, ok1, fr, hrv⟩
    refine ⟨hdir, ?_⟩
    intro u l v hu hok h hv
    have hrecomp : ∀ l2 w, VisitExpr g u (.function j ty body) = .ok (l2, w) →
        l = l2 →
        v = { w with layout_map := alSet w.layout_map j l2 } →
        (alFind u.layout_map j = none ∨ 0 < u.timestamp) →
        Later F C B u v ∧ LtsOK C v ∧ ArgFresh g v (.function j ty body) ∧
          argVal v (.function j ty body) = l := by
      intro l2 w hvis hl hvv hcase
      have hwmod : w.modified = false := by
        have hmm : v.modified = w.modified := by rw [hvv]
        rw [← hmm]
        exact hv
      obtain ⟨L1, ok1, frB, hrvB0⟩ := hdir u l2 w hu hok hvis hwmod
      have hrvB : readVal w body = l2 := hrvB0
      have frB' : FreshDirect g w body := frB
      have hover : (0 < w.timestamp ∨ alFind w.layout_map j = none) →
          Later F C B u v ∧ LtsOK C v ∧ ArgFresh g v (.function j ty body) ∧
            argVal v (.function j ty body) = l := by
        intro hguard
        have L2 : Later F C B w v := by
          refine ⟨by rw [hvv], ?_, ?_, fun k => Or.inl (by rw [hvv])⟩
          · intro k hk
            have hkj : k ≠ j := fun he => hk (he ▸ hF)
            rw [hvv]
            simp only []
            exact alFind_alSet_ne _ _ _ _ hkj
          · intro k hk
            by_cases hkj : k = j
            · subst hkj
              refine Or.inr ⟨hguard, body, hB, ?_⟩
              rw [hvv]
              simp only []
              rw [alFind_alSet_self, hrvB]
            · refine Or.inl ?_
              rw [hvv]
              simp only []
              exact alFind_alSet_ne _ _ _ _ hkj
        have okv : LtsOK C v :=
          ltsOK_congr C w v (by rw [hvv]) (by rw [hvv]) ok1
        have hfindv : alFind v.layout_map j = some l2 := by
          rw [hvv]
          simp only []
          exact alFind_alSet_self _ _ _
        have frv : FreshDirect g v body :=
          (fresh_persist g F C B hBfun hScoped w v L2 ok1 body hclsb).1 frB'
        have hrvv : readVal v body = readVal w body :=
          readVal_eq_of_later F C B w v L2 body hclsb
        refine ⟨Later.trans' F C B u w v hBcls L1 L2, okv, ?_, ?_⟩
        · simp only [ArgFresh]
          by_cases htsv : tsGet v.layout_timestamp j < v.timestamp
          · rw [if_pos htsv]
            exact ⟨frv, by rw [hfindv, hrvv, hrvB]⟩
          · rw [if_neg htsv]
            exact ⟨l2, hfindv⟩
        · rw [hl]
          simp [argVal, Expr.nid, hfindv]
      cases hwj : alFind w.layout_map j with
      | none => exact hover (Or.inr hwj)
      | some y =>
          rcases hcase with hnone | hpos
          · rcases L1.map_fn j hF with hsame | ⟨-, b', hb', hwj'⟩
            · exfalso
              rw [hsame, hnone] at hwj
              exact Option.noConfusion hwj
            · rw [hBfun j b' body hb' hB] at hwj'
              have hy : y = readVal u body := by
                rw [hwj] at hwj'
                exact Option.some.inj hwj'
              have hrel : readVal w body = readVal u body :=
                readVal_eq_of_later F C B u w L1 body hclsb
              have hyl2 : y = l2 := by
                rw [hy, ← hrel]
                exact hrvB
              have hfindw : alFind w.layout_map j = some l2 := by
                rw [hwj, hyl2]
              have hveq : v = w := by
                rw [hvv]
                rw [state_set_self w j l2 hfindw]
              rw [hveq, hl]
              refine ⟨L1, ok1, ?_, ?_⟩
              · simp only [ArgFresh]
                by_cases htsw : tsGet w.layout_timestamp j < w.timestamp
                · rw [if_pos htsw]
                  exact ⟨frB', by rw [hfindw, hrvB]⟩
                · rw [if_neg htsw]
                  exact ⟨l2, hfindw⟩
              · simp [argVal, Expr.nid, hfindw]
          · exact hover (Or.inl (by rw [L1.ts_eq]; exact hpos))
    cases hf : alFind u.layout_map j with
    | none =>
        have hf' : alFind u.layout_map (Expr.function j ty body).nid = none := hf
        unfold GetLayout at h
        simp only [hf'] at h
        cases hvis : VisitExpr g u (.function j ty body) with
        | error e => simp [hvis] at h
        | ok p =>
            obtain ⟨l2, w⟩ := p
            simp only [hvis] at h
            obtain ⟨hl, hvv⟩ := Prod.mk.injEq .. ▸ Except.ok.inj h
            exact hrecomp l2 w hvis hl.symm hvv.symm (Or.inl hf)
    | some x =>
        have hf' : alFind u.layout_map (Expr.function j ty body).nid = some x := hf
        by_cases hts : tsGet u.layout_timestamp (Expr.function j ty body).nid < u.timestamp
        · unfold GetLayout at h
          simp only [hf', if_pos hts] at h
          cases hvis : VisitExpr g u (.function j ty body) with
          | error e => simp [hvis] at h
          | ok p =>
              obtain ⟨l2, w⟩ := p
              simp only [hvis] at h
              obtain ⟨hl, hvv⟩ := Prod.mk.injEq .. ▸ Except.ok.inj h
              exact hrecomp l2 w hvis hl.symm hvv.symm
                (Or.inr (lt_of_le_of_lt (Nat.zero_le _) hts))
        · rw [getLayout_cached g u _ x hf' hts] at h
          obtain ⟨hl, hvv⟩ := Prod.mk.injEq .. ▸ Except.ok.inj h
          rw [← hvv, ← hl]
          refine ⟨Later.rfl' F C B u, hok, ?_, by simp [argVal, Expr.nid, hf]⟩
          simp only [ArgFresh]
          have hts2 : ¬ tsGet u.layout_timestamp j < u.timestamp := hts
          rw [if_neg hts2]
          exact ⟨x, hf⟩
  all_goals
    intro j ty hcls
    simp only [Cls] at hcls
    refine ⟨?_, ?_⟩
    · intro u l v hu hok h hv
      simp [VisitExpr] at h
    intro u l v hu hok h hv
    unfold GetLayout at h
    simp only [Expr.nid] at h
    cases hf : alFind u.layout_map j with
    | none =>
        simp only [hf] at h
        simp [VisitExpr] at h
    | some x =>
        by_cases hts : tsGet u.layout_timestamp j < u.timestamp
        · simp only [hf, if_pos hts] at h
          simp [VisitExpr] at h
        · simp only [hf, if_neg hts] at h
          obtain ⟨hl, hvv⟩ := Prod.mk.injEq .. ▸ Except.ok.inj h
          rw [← hvv, ← hl]
          refine ⟨Later.rfl' F C B u, hok, ?_, ?_⟩
          · simp only [ArgFresh]
            exact ⟨hts, x, hf⟩
          · simp [argVal, Expr.nid, hf]

/-- The fixed-point loop of `Infer`, run until the modified flag is clear
within one generation discipline, ends in a state for which the root is
fresh: re-visiting it from that state is an exact no-op. -/
theorem inferRounds_fresh (g : Rules) (F C : Nat → Prop) (B : Nat → Expr → Prop)
    (root : Expr)
    (hBfun : ∀ k b b', B k b → B k b' → b = b')
    (hBcls : ∀ k b, B k b → Cls F C B b)
    (hScoped : RulesScoped g) (hcls : Cls F C B root) :
    ∀ fuel s1, LtsOK C s1 →
      (s1.modified = false → FreshDirect g s1 root) →
      ∀ s, InferRounds g root fuel s1 = .ok (some s) →
      s.modified = false ∧ FreshDirect g s root := by
  intro fuel
  induction fuel with
  | zero =>
      intro s1 hok hfr s h
      unfold InferRounds at h
      by_cases hm : s1.modified = true
      · rw [if_pos hm] at h
        exact absurd h (by simp)
      · rw [if_neg hm] at h
        have hm' : s1.modified = false := by
          cases hmm : s1.modified
          · rfl
          · exact absurd hmm hm
        have hs : s1 = s := by simpa using h
        rw [← hs]
        exact ⟨hm', hfr hm'⟩
  | succ fuel ih =>
      intro s1 hok hfr s h
      unfold InferRounds at h
      by_cases hm : s1.modified = true
      · rw [if_pos hm] at h
        cases hr : runRound g root s1 with
        | error e =>
            simp only [hr] at h
            exact Except.noConfusion h
        | ok s2 =>
            simp only [hr] at h
            have hv : ∃ l, VisitExpr g (roundStart s1) root = .ok (l, s2) := by
              unfold runRound at hr
              cases hvv : VisitExpr g (roundStart s1) root with
              | error e =>
                  simp only [hvv] at hr
                  exact Except.noConfusion hr
              | ok p =>
                  obtain ⟨l, s'⟩ := p
                  simp only [hvv, Except.ok.injEq] at hr
                  exact ⟨l, by rw [hr]⟩
            obtain ⟨l, hv⟩ := hv
            have hokR : LtsOK C (roundStart s1) := by
              intro k x hx
              obtain ⟨hle, hC⟩ := hok k x hx
              exact ⟨Nat.le_succ_of_le hle, hC⟩
            have hok2 : LtsOK C s2 :=
              visit_ltsOK g F C B root hcls (roundStart s1) l s2 hv hokR
            have hfr2 : s2.modified = false → FreshDirect g s2 root := fun hm2 =>
              ((master g F C B hBfun hBcls hScoped root hcls).1 (roundStart s1) l s2
                rfl hokR hv hm2).2.2.1
            exact ih s2 hok2 hfr2 s h
      · rw [if_neg hm] at h
        have hm' : s1.modified = false := by
          cases hmm : s1.modified
          · rfl
          · exact absurd hmm hm
        have hs : s1 = s := by simpa using h
        rw [← hs]
        exact ⟨hm', hfr hm'⟩

/-- The reporter contract holds of the Scenario B registry: `convRule`
proposes only for the nodes bound to its reporter. -/
theorem convRules_scoped : RulesScoped convRules := by
  intro opId r nodes layouts types n props hg hr p hp
  unfold convRules at hg
  by_cases ho : opId = 1
  · rw [if_pos ho] at hg
    have hrr : convRule = r := by simpa using hg
    rw [← hrr] at hr
    unfold convRule at hr
    cases nodes with
    | nil => simp at hr
    | cons x rest =>
      cases rest with
      | nil => simp at hr
      | cons w rest2 =>
        cases rest2 with
        | nil => simp at hr
        | cons c rest3 =>
          cases rest3 with
          | cons d rest4 => simp at hr
          | nil =>
            cases layouts with
            | nil => simp at hr
            | cons lx lrest =>
              cases lrest with
              | nil => simp at hr
              | cons lw lrest2 =>
                cases lrest2 with
                | nil => simp at hr
                | cons lc lrest3 =>
                  cases lrest3 with
                  | cons ld lrest4 => simp at hr
                  | nil =>
                    have hr2 : (if lx = RelayLayout.tensor Layout.undef ∧
                          lw = RelayLayout.tensor Layout.undef ∧
                          lc = RelayLayout.tensor Layout.undef
                        then some [(x, RelayLayout.tensor NCHW),
                                   (w, RelayLayout.tensor OIHW),
                                   (c, RelayLayout.tensor NCHW)]
                        else none) = some props := hr
                    by_cases hcond : lx = RelayLayout.tensor Layout.undef ∧
                        lw = RelayLayout.tensor Layout.undef ∧
                        lc = RelayLayout.tensor Layout.undef
                    · rw [if_pos hcond] at hr2
                      have hpr :
                          [(x, RelayLayout.tensor NCHW), (w, RelayLayout.tensor OIHW),
                           (c, RelayLayout.tensor NCHW)] = props := by
                        simpa using hr2
                      rw [← hpr] at hp
                      simp only [List.mem_cons, List.not_mem_nil, or_false] at hp
                      rcases hp with h1 | h1 | h1 <;> rw [h1] <;> simp
                    · rw [if_neg hcond] at hr2
                      exact absurd hr2 (by simp)
  · rw [if_neg ho] at hg
    exact absurd hg (by simp)

/-- C6: once `Infer` has converged — its fixed-point loop completed a round
with the modified flag false — a second call to `Infer` on the resulting
inferencer state is an exact no-op: the modified flag stays false and the
layout map (indeed, the whole state) is unchanged, and this holds under the
C++ object-model assumptions (node identities consistently classify into
function, call and other nodes; each function identity has one body; rules
propose only for their reporter's nodes; the run starts from a freshly
constructed inferencer state, whose timestamp map is empty or holds only
call stamps within the current generation). -/
theorem C6_infer_idempotent (g : Rules) (F C : Nat → Prop) (B : Nat → Expr → Prop)
    (root : Expr) (s0 : State) (fuel fuel' : Nat) (s : State)
    (hBfun : ∀ k b b', B k b → B k b' → b = b')
    (hBcls : ∀ k b, B k b → Cls F C B b)
    (hScoped : RulesScoped g)
    (hcls : Cls F C B root)
    (hm0 : s0.modified = false)
    (hok0 : LtsOK C s0)
    (h : Infer g root fuel s0 = .ok (some s)) :
    s.modified = false ∧ Infer g root fuel' s = .ok (some s) := by
  unfold Infer at h
  cases hv0 : VisitExpr g s0 root with
  | error e =>
      simp only [hv0] at h
      exact Except.noConfusion h
  | ok p =>
      obtain ⟨l1, s1⟩ := p
      simp only [hv0] at h
      have hok1 : LtsOK C s1 := visit_ltsOK g F C B root hcls s0 l1 s1 hv0 hok0
      have hfr1 : s1.modified = false → FreshDirect g s1 root := fun hm1 =>
        ((master g F C B hBfun hBcls hScoped root hcls).1 s0 l1 s1 hm0 hok0 hv0
          hm1).2.2.1
      obtain ⟨hsm, hsf⟩ := inferRounds_fresh g F C B root hBfun hBcls hScoped hcls
        fuel s1 hok1 hfr1 s h
      refine ⟨hsm, ?_⟩
      have hvis := (fresh_fix g root s).1 hsf
      unfold Infer
      rw [hvis]
      unfold InferRounds
      rw [hsm]
      simp

set_option maxHeartbeats 2000000 in
/-- Witness for C6: Scenario B from a freshly constructed inferencer.
The first `Infer` converges in one fixed-point round to the state with
`x : NCHW`, `w : OIHW`, `call : NCHW`; the second `Infer` on that state
returns it unchanged with the modified flag still false, even with no fuel
for further rounds. -/
theorem C6_infer_idempotent_witness :
    ({ layout_map := [(0, RelayLayout.tensor NCHW), (1, RelayLayout.tensor OIHW),
                      (2, RelayLayout.tensor NCHW)],
       layout_timestamp := [(2, 1)], modified := false, timestamp := 1 } : State).modified
        = false ∧
    Infer convRules convCall 0
      { layout_map := [(0, RelayLayout.tensor NCHW), (1, RelayLayout.tensor OIHW),
                       (2, RelayLayout.tensor NCHW)],
        layout_timestamp := [(2, 1)], modified := false, timestamp := 1 } =
      .ok (some
        { layout_map := [(0, RelayLayout.tensor NCHW), (1, RelayLayout.tensor OIHW),
                         (2, RelayLayout.tensor NCHW)],
          layout_timestamp := [(2, 1)], modified := false, timestamp := 1 }) :=
  C6_infer_idempotent convRules (fun _ => False) (fun k => k = 2) (fun _ _ => False)
    convCall (initState []) 1 0
    { layout_map := [(0, RelayLayout.tensor NCHW), (1, RelayLayout.tensor OIHW),
                     (2, RelayLayout.tensor NCHW)],
      layout_timestamp := [(2, 1)], modified := false, timestamp := 1 }
    (fun _ _ _ hb _ => hb.elim)
    (fun _ _ hb => hb.elim)
    convRules_scoped
    (by simp [convCall, Cls, ClsList])
    rfl
    (fun k x hx => by simp [initState, alFind] at hx)
    (by decide)

/-- Witness for C10 on the Scenario B call from the empty state. -/
theorem C10_call_stamped_and_memoized_witness :
    VisitExpr convRules (initState []) (.call 2 .tensorTy 1 [.var 0 .tensorTy, .var 1 .tensorTy]) =
      .ok (RelayLayout.tensor NCHW,
        { layout_map := [(0, RelayLayout.tensor NCHW), (1, RelayLayout.tensor OIHW),
                         (2, RelayLayout.tensor NCHW)],
          layout_timestamp := [(2, 0)], modified := true, timestamp := 0 }) ∧
    GetLayout convRules
      { layout_map := [(0, RelayLayout.tensor NCHW), (1, RelayLayout.tensor OIHW),
                       (2, RelayLayout.tensor NCHW)],
        layout_timestamp := [(2, 0)], modified := true, timestamp := 0 }
      (.call 2 .tensorTy 1 [.var 0 .tensorTy, .var 1 .tensorTy]) =
      .ok (RelayLayout.tensor NCHW,
        { layout_map := [(0, RelayLayout.tensor NCHW), (1, RelayLayout.tensor OIHW),
                         (2, RelayLayout.tensor NCHW)],
          layout_timestamp := [(2, 0)], modified := true, timestamp := 0 }) := by
  refine ⟨by decide, ?_⟩
  have h := C10_call_stamped_and_memoized convRules (initState []) 2 .tensorTy 1
    [.var 0 .tensorTy, .var 1 .tensorTy] (RelayLayout.tensor NCHW)
    { layout_map := [(0, RelayLayout.tensor NCHW), (1, RelayLayout.tensor OIHW),
                     (2, RelayLayout.tensor NCHW)],
      layout_timestamp := [(2, 0)], modified := true, timestamp := 0 }
    (by decide)
  exact h.2.2.2

end LayoutInfer
